import Mathlib

set_option maxHeartbeats 1000000

/-!
Verification of the semver range parser (`ParseRange` and its normalization
pipeline) against its natural-language specification.

The Go source drives range recognition through a fixed table of RE2 regular
expressions.  Here each needed pattern is embedded as a backtracking parser
over `List Char` that returns all alternatives in backtracking priority order
(greedy sub-patterns enumerate longest matches first, alternations in source
order), each alternative carrying the consumed characters and the remaining
input.  Taking the first full-consumption result reproduces RE2's
leftmost-first semantics for the anchored patterns, and a left-to-right scan
taking the first match at each position reproduces `ReplaceAllString`.

The `Version` collaborator (parse and three-way compare) is not part of the
observed source; it is modelled from the spec where marked.
-/

namespace Semver

/-! ## Character classes (RE2 Perl classes restricted to ASCII, which is all
    the grammar and the claims exercise) -/

def isDigitCh (c : Char) : Bool := '0' ≤ c && c ≤ '9'

/-- RE2's `\s` is `[\t\n\f\r ]`. -/
def isSpaceRe (c : Char) : Bool :=
  c = '\t' || c = '\n' || c = '\x0c' || c = '\r' || c = ' '

/-- Go `strings.TrimSpace` / `unicode.IsSpace`, ASCII part (adds `\v`). -/
def isSpaceTrim (c : Char) : Bool := isSpaceRe c || c = '\x0b'

def isNonZeroDigit (c : Char) : Bool := '1' ≤ c && c ≤ '9'

def isAlphaDash (c : Char) : Bool :=
  ('a' ≤ c && c ≤ 'z') || ('A' ≤ c && c ≤ 'Z') || c = '-'

def isAlnumDash (c : Char) : Bool := isAlphaDash c || isDigitCh c

/-- The class `[v=\s]` that opens `XRANGEPLAIN` and `LOOSEPLAIN`. -/
def isVEqSpace (c : Char) : Bool := c = 'v' || c = '=' || isSpaceRe c

/-! ## Backtracking parsers for the regex patterns -/

def Parser (α : Type) : Type := List Char → List (α × List Char × List Char)

def pPure {α : Type} (a : α) : Parser α := fun s => [(a, [], s)]

def pBind {α β : Type} (p : Parser α) (f : α → Parser β) : Parser β :=
  fun s => (p s).flatMap (fun x => (f x.1 x.2.2).map (fun y => (y.1, x.2.1 ++ y.2.1, y.2.2)))

def pMap {α β : Type} (p : Parser α) (f : α → β) : Parser β :=
  fun s => (p s).map (fun x => (f x.1, x.2.1, x.2.2))

/-- Alternation `a|b`: alternatives of `p` take priority over those of `q`. -/
def pAlt {α : Type} (p q : Parser α) : Parser α := fun s => p s ++ q s

/-- Greedy `(...)?`: the present alternative takes priority. -/
def pOpt {α : Type} (p : Parser α) (d : α) : Parser α := pAlt p (pPure d)

def pChar (c : Char) : Parser Char := fun s =>
  match s with
  | [] => []
  | x :: xs => if x = c then [(x, [x], xs)] else []

def pClass (f : Char → Bool) : Parser Char := fun s =>
  match s with
  | [] => []
  | x :: xs => if f x then [(x, [x], xs)] else []

/-- Greedy `[class]*`: splits enumerated longest-first. -/
def pStarClass (f : Char → Bool) : Parser (List Char) := fun s =>
  let t := s.takeWhile f
  let r := s.dropWhile f
  ((List.range (t.length + 1)).reverse).map (fun i => (t.take i, t.take i, t.drop i ++ r))

/-- Greedy `[class]+`: splits enumerated longest-first, at least one char. -/
def pPlusClass (f : Char → Bool) : Parser (List Char) := fun s =>
  let t := s.takeWhile f
  let r := s.dropWhile f
  ((List.range t.length).reverse).map (fun i => (t.take (i+1), t.take (i+1), t.drop (i+1) ++ r))

/-- Greedy `(...)*` over a sub-pattern; `fuel` bounds the iteration count and
    is always instantiated with the input length, which suffices because each
    iteration of the sub-patterns used here consumes at least one character. -/
def pManyAux {α : Type} (p : Parser α) : Nat → Parser (List α)
  | 0 => pPure []
  | n+1 => pAlt (pBind p (fun a => pMap (pManyAux p n) (fun l => a :: l))) (pPure [])

/-- Expose the substring a sub-pattern consumed (a regex capture group around
    a composite sub-pattern). -/
def pWithConsumed {α : Type} (p : Parser α) : Parser (α × List Char) :=
  fun s => (p s).map (fun x => ((x.1, x.2.1), x.2.1, x.2.2))

/-! ## Grammar definitions (`getRegex` patterns) -/

/-- `NUMERICIDENTIFIER = 0|[1-9]\d*` (alternation in source order). -/
def pNumericId : Parser (List Char) :=
  pAlt (pMap (pChar '0') (fun c => [c]))
       (pBind (pClass isNonZeroDigit) (fun c => pMap (pStarClass isDigitCh) (fun ds => c :: ds)))

/-- `XRANGEIDENTIFIER = NUMERICIDENTIFIER|x|X|\*`. -/
def pXId : Parser (List Char) :=
  pAlt pNumericId
    (pAlt (pMap (pChar 'x') (fun c => [c]))
      (pAlt (pMap (pChar 'X') (fun c => [c])) (pMap (pChar '*') (fun c => [c]))))

/-- `NONNUMERICIDENTIFIER = \d*[a-zA-Z-][a-zA-Z0-9-]*`. -/
def pNonNumericId : Parser (List Char) :=
  pBind (pStarClass isDigitCh) (fun ds =>
  pBind (pClass isAlphaDash) (fun c =>
  pMap (pStarClass isAlnumDash) (fun tl => ds ++ c :: tl)))

/-- `PRERELEASEIDENTIFIER = (?:NUMERICIDENTIFIER|NONNUMERICIDENTIFIER)`. -/
def pPrId : Parser (List Char) := pAlt pNumericId pNonNumericId

/-- `p(\.p)*`, returning the full consumed identifier list as text. -/
def pDotted (p : Parser (List Char)) (fuel : Nat) : Parser (List Char) :=
  pBind p (fun first =>
  pMap (pManyAux (pBind (pChar '.') (fun _ => pMap p (fun ident => '.' :: ident))) fuel)
       (fun rest => first ++ rest.flatten))

/-- `PRERELEASE = (?:-(PRID(\.PRID)*))`, value = capture group (no dash). -/
def pPrerelease (fuel : Nat) : Parser (List Char) :=
  pBind (pChar '-') (fun _ => pDotted pPrId fuel)

/-- `BUILDIDENTIFIER = [0-9A-Za-z-]+`. -/
def pBuildId : Parser (List Char) := pPlusClass isAlnumDash

/-- `BUILD = (?:\+(BID(\.BID)*))`. -/
def pBuild (fuel : Nat) : Parser (List Char) :=
  pBind (pChar '+') (fun _ => pDotted pBuildId fuel)

/-- `PRERELEASEIDENTIFIERLOOSE = (?:[0-9]+|NONNUMERICIDENTIFIER)`. -/
def pPrIdLoose : Parser (List Char) := pAlt (pPlusClass isDigitCh) pNonNumericId

/-- `PRERELEASELOOSE = (?:-?(PRIDLOOSE(\.PRIDLOOSE)*))`. -/
def pPrereleaseLoose (fuel : Nat) : Parser (List Char) :=
  pBind (pOpt (pMap (pChar '-') (fun c => [c])) []) (fun _ => pDotted pPrIdLoose fuel)

/-- The capture groups of one `XRANGEPLAIN`; a group that did not participate
    in the match is the empty string, as in Go's `FindStringSubmatch`. -/
structure XCaps where
  M : List Char
  m : List Char
  p : List Char
  pr : List Char
  build : List Char
deriving DecidableEq, Repr

/-- `\.(XID)(?:PRERELEASE)?BUILD?` — innermost optional group of XRANGEPLAIN. -/
def pXRangeTail2 (fuel : Nat) (M m : List Char) : Parser XCaps :=
  pBind (pChar '.') (fun _ =>
  pBind pXId (fun p =>
  pBind (pOpt (pPrerelease fuel) []) (fun pr =>
  pMap (pOpt (pBuild fuel) []) (fun b => ⟨M, m, p, pr, b⟩))))

/-- `\.(XID)(?:TAIL2)?` — middle optional group of XRANGEPLAIN. -/
def pXRangeTail1 (fuel : Nat) (M : List Char) : Parser XCaps :=
  pBind (pChar '.') (fun _ =>
  pBind pXId (fun m =>
  pOpt (pXRangeTail2 fuel M m) ⟨M, m, [], [], []⟩))

/-- `XRANGEPLAIN = [v=\s]*(XID)(?:\.(XID)(?:\.(XID)(?:PRERELEASE)?BUILD?)?)?`. -/
def pXRangePlain (fuel : Nat) : Parser XCaps :=
  pBind (pStarClass isVEqSpace) (fun _ =>
  pBind pXId (fun M =>
  pOpt (pXRangeTail1 fuel M) ⟨M, [], [], [], []⟩))

/-- `GTLT = ((?:<|>)?=?)`. -/
def pGtlt : Parser (List Char) :=
  pBind (pOpt (pAlt (pMap (pChar '<') (fun c => [c])) (pMap (pChar '>') (fun c => [c]))) [])
    (fun a => pMap (pOpt (pMap (pChar '=') (fun c => [c])) []) (fun b => a ++ b))

/-- First full-consumption alternative: the submatch RE2 reports for a
    pattern anchored as `^...$`. -/
def firstFull {α : Type} (l : List (α × List Char × List Char)) : Option α :=
  ((l.filter (fun x => x.2.2 = [])).head?).map (fun x => x.1)

/-- `TILDE = ^(?:~>?)XRANGEPLAIN$`. -/
def pTilde (fuel : Nat) : Parser XCaps :=
  pBind (pChar '~') (fun _ =>
  pBind (pOpt (pMap (pChar '>') (fun c => [c])) []) (fun _ => pXRangePlain fuel))

def matchTilde (s : List Char) : Option XCaps := firstFull (pTilde (s.length + 1) s)

/-- `CARET = ^(?:\^)XRANGEPLAIN$`. -/
def pCaret (fuel : Nat) : Parser XCaps :=
  pBind (pChar '^') (fun _ => pXRangePlain fuel)

def matchCaret (s : List Char) : Option XCaps := firstFull (pCaret (s.length + 1) s)

/-- `XRANGE = ^GTLT\s*XRANGEPLAIN$`. -/
def pXRange (fuel : Nat) : Parser (List Char × XCaps) :=
  pBind pGtlt (fun g =>
  pBind (pStarClass isSpaceRe) (fun _ =>
  pMap (pXRangePlain fuel) (fun c => (g, c))))

def matchXRange (s : List Char) : Option (List Char × XCaps) :=
  firstFull (pXRange (s.length + 1) s)

/-- Submatches of `HYPHENRANGE`: group 1 / group 7 are the literal texts the
    two `XRANGEPLAIN`s consumed, the rest their component captures. -/
structure HCaps where
  fromLit : List Char
  fCaps : XCaps
  toLit : List Char
  tCaps : XCaps
deriving DecidableEq, Repr

/-- `\s+(XRANGEPLAIN)\s*$` — the part of HYPHENRANGE after the dash. -/
def pHyphenAfterDash (fuel : Nat) (fc : XCaps × List Char) : Parser HCaps :=
  pBind (pPlusClass isSpaceRe) (fun _ =>
  pBind (pWithConsumed (pXRangePlain fuel)) (fun tc =>
  pMap (pStarClass isSpaceRe) (fun _ => ⟨fc.2, fc.1, tc.2, tc.1⟩)))

/-- `HYPHENRANGE = ^\s*(XRANGEPLAIN)\s+-\s+(XRANGEPLAIN)\s*$`. -/
def pHyphen (fuel : Nat) : Parser HCaps :=
  pBind (pStarClass isSpaceRe) (fun _ =>
  pBind (pWithConsumed (pXRangePlain fuel)) (fun fc =>
  pBind (pPlusClass isSpaceRe) (fun _ =>
  pBind (pChar '-') (fun _ => pHyphenAfterDash fuel fc))))

def matchHyphen (s : List Char) : Option HCaps := firstFull (pHyphen (s.length + 1) s)

/-! ## `ReplaceAllString` as a left-to-right scan -/

/-- First alternative (backtracking priority) of an unanchored match starting
    exactly at the head of `s`. -/
def headMatch {α : Type} (p : Parser α) (s : List Char) : Option (α × List Char × List Char) :=
  (p s).head?

/-- `re.ReplaceAllString`: scan left to right, replace the leftmost-first
    match at each position, continue after it.  None of the patterns used with
    it can match the empty string; the `consumed = []` guard only keeps the
    function total. -/
def replaceAllAux {α : Type} (p : Parser α) (repl : α → List Char) : Nat → List Char → List Char
  | 0, s => s
  | _+1, [] => []
  | fuel+1, c :: cs =>
    match headMatch p (c :: cs) with
    | some (a, consumed, rest) =>
      if consumed = [] then c :: replaceAllAux p repl fuel cs
      else repl a ++ replaceAllAux p repl fuel rest
    | none => c :: replaceAllAux p repl fuel cs

def replaceAll {α : Type} (p : Parser α) (repl : α → List Char) (s : List Char) : List Char :=
  replaceAllAux p repl (s.length + 1) s

/-- `MAINVERSIONLOOSE`-based `LOOSEPLAIN` (captures unused by the pipeline). -/
def pLoosePlainU (fuel : Nat) : Parser Unit :=
  pBind (pStarClass isVEqSpace) (fun _ =>
  pBind (pPlusClass isDigitCh) (fun _ =>
  pBind (pChar '.') (fun _ =>
  pBind (pPlusClass isDigitCh) (fun _ =>
  pBind (pChar '.') (fun _ =>
  pBind (pPlusClass isDigitCh) (fun _ =>
  pBind (pOpt (pPrereleaseLoose fuel) []) (fun _ =>
  pMap (pOpt (pBuild fuel) []) (fun _ => ()))))))))

/-- `COMPARATORTRIM = (\s*)GTLT\s*(LOOSEPLAIN|XRANGEPLAIN)`, with the value
    already assembled as the replacement `$1$2$3`. -/
def pCompTrim (fuel : Nat) : Parser (List Char) :=
  pBind (pStarClass isSpaceRe) (fun g1 =>
  pBind pGtlt (fun g2 =>
  pBind (pStarClass isSpaceRe) (fun _ =>
  pMap (pWithConsumed (pAlt (pLoosePlainU fuel) (pMap (pXRangePlain fuel) (fun _ => ()))))
       (fun g3 => g1 ++ g2 ++ g3.2))))

def comparatorTrim (s : List Char) : List Char :=
  replaceAll (pCompTrim (s.length + 1)) (fun g => g) s

/-- `TILDETRIM = (\s*)(?:~>?)\s+`, replacement `$1~`. -/
def pTildeTrim : Parser (List Char) :=
  pBind (pStarClass isSpaceRe) (fun g1 =>
  pBind (pChar '~') (fun _ =>
  pBind (pOpt (pMap (pChar '>') (fun c => [c])) []) (fun _ =>
  pMap (pPlusClass isSpaceRe) (fun _ => g1 ++ ['~']))))

def tildeTrim (s : List Char) : List Char := replaceAll pTildeTrim (fun g => g) s

/-- `CARETTRIM = (\s*)(?:\^)\s+`, replacement `$1^`. -/
def pCaretTrim : Parser (List Char) :=
  pBind (pStarClass isSpaceRe) (fun g1 =>
  pBind (pChar '^') (fun _ =>
  pMap (pPlusClass isSpaceRe) (fun _ => g1 ++ ['^'])))

def caretTrim (s : List Char) : List Char := replaceAll pCaretTrim (fun g => g) s

/-- `STAR = (<|>)?=?\s*\*`, replaced globally with `>=0.0.0`. -/
def pStarPat : Parser Unit :=
  pBind (pOpt (pAlt (pMap (pChar '<') (fun c => [c])) (pMap (pChar '>') (fun c => [c]))) []) (fun _ =>
  pBind (pOpt (pMap (pChar '=') (fun c => [c])) []) (fun _ =>
  pBind (pStarClass isSpaceRe) (fun _ =>
  pMap (pChar '*') (fun _ => ()))))

def starReplace (s : List Char) : List Char :=
  replaceAll pStarPat (fun _ => ">=0.0.0".data) s

/-! ## String utilities (`strings.TrimSpace`, splits, joins) -/

def trimSpaceL (s : List Char) : List Char :=
  ((s.dropWhile isSpaceTrim).reverse.dropWhile isSpaceTrim).reverse

/-- Prepend a character onto the piece currently being assembled. -/
def consHead (c : Char) : List (List Char) → List (List Char)
  | [] => [[c]]
  | t :: ts => (c :: t) :: ts

/-- Worker for the `\s+` split: the flag records whether the previous
    character was part of a (maximal) whitespace run. -/
def splitWsF : Bool → List Char → List (List Char)
  | _, [] => [[]]
  | inSep, c :: cs =>
    if isSpaceRe c then
      if inSep then splitWsF true cs else [] :: splitWsF true cs
    else consHead c (splitWsF false cs)

/-- `regexp.MustCompile("\\s+").Split(s, -1)`: pieces between maximal
    whitespace runs, with empty pieces kept at the ends. -/
def splitWs (s : List Char) : List (List Char) := splitWsF false s

/-- `strings.Split(s, sep)` for a one-character separator. -/
def splitOnChar (sep : Char) : List Char → List (List Char)
  | [] => [[]]
  | c :: cs =>
    if c = sep then [] :: splitOnChar sep cs
    else consHead c (splitOnChar sep cs)

/-- The OR separator `\s*\|\|\s*`. -/
def pOrSep : Parser Unit :=
  pBind (pStarClass isSpaceRe) (fun _ =>
  pBind (pChar '|') (fun _ =>
  pBind (pChar '|') (fun _ =>
  pMap (pStarClass isSpaceRe) (fun _ => ()))))

/-- `regexp.MustCompile("\\s*\\|\\|\\s*").Split(s, -1)`: scan left to right,
    cut at each leftmost-first separator match. -/
def splitOrAux : Nat → List Char → List (List Char)
  | 0, s => [s]
  | _+1, [] => [[]]
  | fuel+1, c :: cs =>
    match headMatch pOrSep (c :: cs) with
    | some (_, consumed, rest) =>
      if consumed = [] then consHead c (splitOrAux fuel cs)
      else [] :: splitOrAux fuel rest
    | none => consHead c (splitOrAux fuel cs)

def splitOr (s : List Char) : List (List Char) := splitOrAux (s.length + 1) s

def lit (s : String) : List Char := s.data

/-! ## The Version collaborator, modelled from the spec -/

inductive PreId where
  | num : Nat → PreId
  | alnum : List Char → PreId
deriving DecidableEq, Repr

/-- Modelled from the spec: the Version entity of the external collaborator
    (major/minor/patch, prerelease identifier sequence, build metadata carried
    but never compared). -/
structure Version where
  major : Nat
  minor : Nat
  patch : Nat
  pre : List PreId
  build : List (List Char)
deriving DecidableEq, Repr

def cmpNat (a b : Nat) : Int := if a < b then -1 else if b < a then 1 else 0

/-- Byte-wise lexicographic comparison of alphanumeric identifiers. -/
def cmpChars : List Char → List Char → Int
  | [], [] => 0
  | [], _ :: _ => -1
  | _ :: _, [] => 1
  | a :: as, b :: bs => if a < b then -1 else if b < a then 1 else cmpChars as bs

def cmpPreId : PreId → PreId → Int
  | .num a, .num b => cmpNat a b
  | .num _, .alnum _ => -1
  | .alnum _, .num _ => 1
  | .alnum a, .alnum b => cmpChars a b

def cmpPreList : List PreId → List PreId → Int
  | [], [] => 0
  | [], _ :: _ => -1
  | _ :: _, [] => 1
  | a :: as, b :: bs => if cmpPreId a b = 0 then cmpPreList as bs else cmpPreId a b

/-- Modelled from the spec: `compareVersions(a, b) -> {-1,0,1}` — numeric
    triples first; a version with a prerelease sequence is lower than the same
    triple without; prerelease sequences element-wise (numeric as integers,
    alphanumeric lexically, numeric below alphanumeric, shorter prefix lower);
    build metadata ignored. -/
def Version.compare (a b : Version) : Int :=
  if a.major ≠ b.major then cmpNat a.major b.major
  else if a.minor ≠ b.minor then cmpNat a.minor b.minor
  else if a.patch ≠ b.patch then cmpNat a.patch b.patch
  else
    match a.pre, b.pre with
    | [], [] => 0
    | [], _ :: _ => 1
    | _ :: _, [] => -1
    | x :: xs, y :: ys => cmpPreList (x :: xs) (y :: ys)

def numVal (s : List Char) : Nat :=
  s.foldl (fun acc c => acc * 10 + (c.toNat - '0'.toNat)) 0

/-- `0` or a non-zero digit followed by digits (no leading zeros). -/
def isStrictNum (s : List Char) : Bool :=
  !s.isEmpty && s.all isDigitCh && (s.length == 1 || s.head? != some '0')

def parsePreId (s : List Char) : Except String PreId :=
  if s.isEmpty then .error "empty prerelease identifier"
  else if !s.all isAlnumDash then .error "invalid prerelease identifier"
  else if s.all isDigitCh then .ok (.num (numVal s))
  else .ok (.alnum s)

/-- Modelled from the spec: `parseVersion(s) -> Version | VersionSyntaxError`
    for `v?MAJOR.MINOR.PATCH[-PRERELEASE][+BUILD]` — the collaborator's parser
    is not part of the observed source.  Numeric components have no leading
    zeros except the literal `0`; prerelease is dot-separated identifiers over
    `[0-9A-Za-z-]`, numeric iff all digits; build is dot-separated
    `[0-9A-Za-z-]+` identifiers, carried but ignored by comparison. -/
def parseVersion (s0 : List Char) : Except String Version :=
  let s := match s0 with
    | 'v' :: rest => rest
    | _ => s0
  let mj := s.takeWhile isDigitCh
  let r1 := s.dropWhile isDigitCh
  if !isStrictNum mj then .error "invalid major version" else
  match r1 with
  | '.' :: r1' =>
    let mn := r1'.takeWhile isDigitCh
    let r2 := r1'.dropWhile isDigitCh
    if !isStrictNum mn then .error "invalid minor version" else
    match r2 with
    | '.' :: r2' =>
      let pt := r2'.takeWhile isDigitCh
      let r3 := r2'.dropWhile isDigitCh
      if !isStrictNum pt then .error "invalid patch version" else
      let base : Version := ⟨numVal mj, numVal mn, numVal pt, [], []⟩
      match r3 with
      | [] => .ok base
      | '-' :: tail =>
        let preChars := tail.takeWhile (fun c => c ≠ '+')
        let buildTail := tail.dropWhile (fun c => c ≠ '+')
        match (splitOnChar '.' preChars).mapM parsePreId with
        | .error e => .error e
        | .ok pre =>
          match buildTail with
          | [] => .ok { base with pre := pre }
          | '+' :: b =>
            let ids := splitOnChar '.' b
            if ids.all (fun i => !i.isEmpty && i.all isAlnumDash) then
              .ok { base with pre := pre, build := ids }
            else .error "invalid build metadata"
          | _ => .error "invalid version"
      | '+' :: b =>
        let ids := splitOnChar '.' b
        if ids.all (fun i => !i.isEmpty && i.all isAlnumDash) then
          .ok { base with build := ids }
        else .error "invalid build metadata"
      | _ => .error "invalid version"
    | _ => .error "invalid version"
  | _ => .error "invalid version"

/-! ## Go integer helpers used by the rewriting code -/

def maxInt64 : Int := 9223372036854775807

def twoPow63 : Int := 9223372036854775808

/-- `strconv.Atoi` on the capture strings the range code feeds it: digit
    strings only.  Go returns the clamped `MaxInt64` value together with
    `ErrRange` on overflow and `0` with an error on a syntax error; every
    caller in the range code discards the error and uses the value. -/
def atoiGo (s : List Char) : Int :=
  if !s.isEmpty && s.all isDigitCh then
    if (numVal s : Int) > maxInt64 then maxInt64 else (numVal s : Int)
  else 0

/-- Go's `x + 1` at type `int`: 64-bit two's-complement wraparound. -/
def i64succ (x : Int) : Int := (x + 1 + twoPow63) % (2 * twoPow63) - twoPow63

/-- `strconv.Itoa`. -/
def itoa (x : Int) : List Char :=
  if x < 0 then '-' :: (Nat.repr (-x).toNat).data else (Nat.repr x.toNat).data

/-! ## The normalization pipeline (`range_parser` rewrites) -/

def isX (s : List Char) : Bool :=
  s.isEmpty || s = ['x'] || s = ['X'] || s = ['*']

def hyphenReplaceL (s : List Char) : List Char :=
  match matchHyphen s with
  | none => s
  | some h =>
    let fM := h.fCaps.M; let fm := h.fCaps.m; let fp := h.fCaps.p
    let tM := h.tCaps.M; let tm := h.tCaps.m; let tp := h.tCaps.p; let tpr := h.tCaps.pr
    let fromStr :=
      if isX fM then []
      else if isX fm then lit ">=" ++ fM ++ lit ".0.0"
      else if isX fp then lit ">=" ++ fM ++ lit "." ++ fm ++ lit ".0"
      else lit ">=" ++ h.fromLit
    let toStr :=
      if isX tM then []
      else if isX tm then lit "<" ++ itoa (i64succ (atoiGo tM)) ++ lit ".0.0"
      else if isX tp then lit "<" ++ tM ++ lit "." ++ itoa (i64succ (atoiGo tm)) ++ lit ".0"
      else if tpr.length > 0 then lit "<=" ++ tM ++ lit "." ++ tm ++ lit "." ++ tp ++ lit "-" ++ tpr
      else lit "<=" ++ h.toLit
    trimSpaceL (fromStr ++ lit " " ++ toStr)

def replaceTildeL (s : List Char) : List Char :=
  match matchTilde s with
  | none => s
  | some c =>
    let M := c.M; let m := c.m; let p := c.p; let pr := c.pr
    let major := atoiGo M
    let minor := atoiGo m
    if isX M then []
    else if isX m then lit ">=" ++ M ++ lit ".0.0 <" ++ itoa (i64succ major) ++ lit ".0.0"
    else if isX p then
      lit ">=" ++ M ++ lit "." ++ m ++ lit ".0 <" ++ M ++ lit "." ++ itoa (i64succ minor) ++ lit ".0"
    else if pr.length > 0 then
      lit ">=" ++ M ++ lit "." ++ m ++ lit "." ++ p ++ lit "-" ++ pr ++
        lit " <" ++ M ++ lit "." ++ itoa (i64succ minor) ++ lit ".0"
    else
      lit ">=" ++ M ++ lit "." ++ m ++ lit "." ++ p ++
        lit " <" ++ M ++ lit "." ++ itoa (i64succ minor) ++ lit ".0"

def replaceTildesL (s : List Char) : List Char :=
  List.intercalate (lit " ") ((splitWs (trimSpaceL s)).map replaceTildeL)

def replaceCaretL (s : List Char) : List Char :=
  match matchCaret s with
  | none => s
  | some c =>
    let M := c.M; let m := c.m; let p := c.p; let pr := c.pr
    let major := atoiGo M
    let minor := atoiGo m
    let patch := atoiGo p
    if isX M then []
    else if isX m then lit ">=" ++ M ++ lit ".0.0 <" ++ itoa (i64succ major) ++ lit ".0.0"
    else if isX p then
      if M = ['0'] then
        lit ">=" ++ M ++ lit "." ++ m ++ lit ".0 <" ++ M ++ lit "." ++ itoa (i64succ minor) ++ lit ".0"
      else lit ">=" ++ M ++ lit "." ++ m ++ lit ".0 <" ++ itoa (i64succ major) ++ lit ".0.0"
    else if pr.length > 0 then
      if M = ['0'] then
        if m = ['0'] then
          lit ">=" ++ M ++ lit "." ++ m ++ lit "." ++ p ++ lit "-" ++ pr ++
            lit " <" ++ M ++ lit "." ++ m ++ lit "." ++ itoa (i64succ patch)
        else
          lit ">=" ++ M ++ lit "." ++ m ++ lit "." ++ p ++ lit "-" ++ pr ++
            lit " <" ++ M ++ lit "." ++ itoa (i64succ minor) ++ lit ".0"
      else
        lit ">=" ++ M ++ lit "." ++ m ++ lit "." ++ p ++ lit "-" ++ pr ++
          lit " <" ++ itoa (i64succ major) ++ lit ".0.0"
    else
      if M = ['0'] then
        if m = ['0'] then
          lit ">=" ++ M ++ lit "." ++ m ++ lit "." ++ p ++
            lit " <" ++ M ++ lit "." ++ m ++ lit "." ++ itoa (i64succ patch)
        else
          lit ">=" ++ M ++ lit "." ++ m ++ lit "." ++ p ++
            lit " <" ++ M ++ lit "." ++ itoa (i64succ minor) ++ lit ".0"
      else
        lit ">=" ++ M ++ lit "." ++ m ++ lit "." ++ p ++
          lit " <" ++ itoa (i64succ major) ++ lit ".0.0"

def replaceCaretsL (s : List Char) : List Char :=
  List.intercalate (lit " ") ((splitWs (trimSpaceL s)).map replaceCaretL)

/-- The body of `replaceXRange` after a successful `XRANGE` match; `ret0` is
    `match[0]`, which the anchors force to be the whole token. -/
def xrangeCore (gtlt0 : List Char) (c : XCaps) (ret0 : List Char) : List Char :=
  let M0 := c.M; let m0 := c.m; let p0 := c.p
  let xM := isX M0
  let xm := xM || isX m0
  let xp := xm || isX p0
  let anyX := xp
  let gtlt := if gtlt0 = lit "=" && anyX then [] else gtlt0
  let major := atoiGo M0
  let minor := atoiGo m0
  if xM then
    if gtlt = lit ">" || gtlt = lit "<" then lit "<0.0.0" else lit "*"
  else if gtlt.length > 0 && anyX then
    let m1 := if xm then lit "0" else m0
    let p1 := lit "0"
    if gtlt = lit ">" then
      if xm then lit ">=" ++ itoa (i64succ major) ++ lit ".0.0"
      else lit ">=" ++ M0 ++ lit "." ++ itoa (i64succ minor) ++ lit ".0"
    else if gtlt = lit "<=" then
      if xm then lit "<" ++ itoa (i64succ major) ++ lit "." ++ m1 ++ lit "." ++ p1
      else lit "<" ++ M0 ++ lit "." ++ itoa (i64succ minor) ++ lit "." ++ p1
    else gtlt ++ M0 ++ lit "." ++ m1 ++ lit "." ++ p1
  else if xm then lit ">=" ++ M0 ++ lit ".0.0 <" ++ itoa (i64succ major) ++ lit ".0.0"
  else if xp then
    lit ">=" ++ M0 ++ lit "." ++ m0 ++ lit ".0 <" ++ M0 ++ lit "." ++ itoa (i64succ minor) ++ lit ".0"
  else ret0

def replaceXRangeL (s : List Char) : List Char :=
  match matchXRange s with
  | none => s
  | some (g, c) => xrangeCore g c s

def replaceXRangesL (s : List Char) : List Char :=
  List.intercalate (lit " ") ((splitWs (trimSpaceL s)).map replaceXRangeL)

def replaceStarsL (s : List Char) : List Char := starReplace (trimSpaceL s)

def parseComparatorStringL (s : List Char) : List Char :=
  replaceStarsL (replaceXRangesL (replaceTildesL (replaceCaretsL s)))

/-- `parseRange` (the segment normalizer): hyphen expansion, the three trims,
    whitespace normalization, token-wise expansion, final re-split. -/
def parseRangeL (s : List Char) : List (List Char) :=
  let s1 := trimSpaceL s
  let s2 := hyphenReplaceL s1
  let s3 := comparatorTrim s2
  let s4 := tildeTrim s3
  let s5 := caretTrim s4
  let s6 := List.intercalate (lit " ") (splitWs s5)
  let out := (splitOnChar ' ' s6).map parseComparatorStringL
  splitWs (List.intercalate (lit " ") out)

/-! ## Predicate builder and `ParseRange` -/

/-- The six comparator kinds `parseComparator` can select. -/
inductive Cmp where
  | eq | ne | gt | ge | lt | le
deriving DecidableEq, Repr

/-- `compEQ` .. `compLE`: each tests the three-way compare of the candidate
    `v1` against the operand `v2`. -/
def compFn : Cmp → Version → Version → Bool
  | .eq, v1, v2 => Version.compare v1 v2 == 0
  | .ne, v1, v2 => Version.compare v1 v2 != 0
  | .gt, v1, v2 => Version.compare v1 v2 == 1
  | .ge, v1, v2 => Version.compare v1 v2 ≥ 0
  | .lt, v1, v2 => Version.compare v1 v2 == -1
  | .le, v1, v2 => Version.compare v1 v2 ≤ 0

def parseComparator (s : List Char) : Option Cmp :=
  if s = lit "==" || s = [] || s = lit "=" then some .eq
  else if s = lit ">" then some .gt
  else if s = lit ">=" then some .ge
  else if s = lit "<" then some .lt
  else if s = lit "<=" then some .le
  else if s = lit "!" || s = lit "!=" then some .ne
  else none

structure versionRange where
  v : Version
  c : Cmp
deriving DecidableEq, Repr

/-- `splitComparatorVersion`: split off the leading operator at the first
    digit (`unicode.IsDigit`; only ASCII digits can reach this point). -/
def splitCompVer (s : List Char) : Except String (List Char × List Char) :=
  if s = ['x'] then .ok ([], ['x'])
  else
    match s.findIdx? isDigitCh with
    | none => .error "Could not get version from string"
    | some i => .ok (trimSpaceL (s.take i), s.drop i)

def buildVersionRange (opStr vStr : List Char) : Except String versionRange :=
  match parseComparator opStr with
  | none => .error "Could not parse comparator"
  | some c =>
    match parseVersion vStr with
    | .error e => .error e
    | .ok v => .ok ⟨v, c⟩

def Range : Type := Version → Bool

def rangeFunc (vr : versionRange) : Range := fun v => compFn vr.c v vr.v

def Range.OR (rf f : Range) : Range := fun v => rf v || f v

def Range.AND (rf f : Range) : Range := fun v => rf v && f v

/-- The `expandedParts` accumulation in `ParseRange`: every OR part whose
    normalization is non-empty contributes the normalization of its trimmed
    text. -/
def expandedParts (s : List Char) : List (List (List Char)) :=
  (splitOr s).foldl
    (fun acc part =>
      if (parseRangeL part).length > 0 then acc ++ [parseRangeL (trimSpaceL part)] else acc)
    []

/-- The inner loop of `ParseRange`: fold the comparators of one AND group
    onto `andFn`, stopping at the first token that fails to split or build. -/
def parseGroupAnd : List (List Char) → Option Range → Except String (Option Range)
  | [], andFn => .ok andFn
  | ap :: rest, andFn =>
    match splitCompVer ap with
    | .error e => .error e
    | .ok (opStr, vStr) =>
      match buildVersionRange opStr vStr with
      | .error e => .error e
      | .ok vr =>
        let rf := rangeFunc vr
        parseGroupAnd rest (some (match andFn with | none => rf | some f => Range.AND f rf))

/-- The outer loop of `ParseRange`: OR the AND groups together.  When a group
    were empty Go would build a closure over a nil function that panics if
    ever called; that case is unreachable because `parseRangeL` always yields
    at least one token, and is mapped to the unchanged `orFn` here. -/
def parseOrGroups : List (List (List Char)) → Option Range → Except String (Option Range)
  | [], orFn => .ok orFn
  | p :: rest, orFn =>
    match parseGroupAnd p none with
    | .error e => .error e
    | .ok andFn =>
      parseOrGroups rest
        (match orFn, andFn with
         | none, a => a
         | some f, some a => some (Range.OR f a)
         | some f, none => some f)

def ParseRangeL (s : List Char) : Except String (Option Range) :=
  parseOrGroups (expandedParts s) none

/-- `ParseRange`: `nil` results on either side are modelled by `Option` /
    `Except`. -/
def ParseRange (s : String) : Except String (Option Range) := ParseRangeL s.data

/-- The same traversal as `ParseRange`'s inner loop, returning the comparator
    data it builds (one AND group) instead of the composed closure. -/
def buildGroupVRs : List (List Char) → Except String (List versionRange)
  | [] => .ok []
  | ap :: rest =>
    match splitCompVer ap with
    | .error e => .error e
    | .ok (opStr, vStr) =>
      match buildVersionRange opStr vStr with
      | .error e => .error e
      | .ok vr =>
        match buildGroupVRs rest with
        | .error e => .error e
        | .ok vrs => .ok (vr :: vrs)

def buildGroups : List (List (List Char)) → Except String (List (List versionRange))
  | [] => .ok []
  | g :: gs =>
    match buildGroupVRs g with
    | .error e => .error e
    | .ok vrs =>
      match buildGroups gs with
      | .error e => .error e
      | .ok rest => .ok (vrs :: rest)

/-- The same traversal as `ParseRange`, returning the comparator data it
    builds (the OR list of AND groups) instead of the composed closure. -/
def ParseRangeGroups (s : String) : Except String (List (List versionRange)) :=
  buildGroups (expandedParts s.data)

/-- Evaluate the Range built for `s` at `v` (`none` when `ParseRange` errors
    or returns a nil Range). -/
def rangeSatisfies (s : String) (v : Version) : Option Bool :=
  match ParseRange s with
  | .ok (some f) => some (f v)
  | _ => none

/-- `true` exactly when `ParseRange` returns an error value. -/
def parseFails (s : String) : Bool :=
  match ParseRange s with
  | .error _ => true
  | .ok _ => false

def mkV (M m p : Nat) : Version := ⟨M, m, p, [], []⟩

/-! ## String-level wrappers used in the claim statements -/

def hyphenReplace (s : String) : String := ⟨hyphenReplaceL s.data⟩

def replaceTilde (s : String) : String := ⟨replaceTildeL s.data⟩

def replaceTildes (s : String) : String := ⟨replaceTildesL s.data⟩

def replaceCaret (s : String) : String := ⟨replaceCaretL s.data⟩

def replaceCarets (s : String) : String := ⟨replaceCaretsL s.data⟩

def replaceXRange (s : String) : String := ⟨replaceXRangeL s.data⟩

def parseRange (s : String) : List String := (parseRangeL s.data).map (fun t => ⟨t⟩)

/-! ## Semantic evaluation of the built comparator data (for relating the
    composed closures to the OR-of-ANDs reading of the spec) -/

/-- The claim's comparator table over the three-way compare result. -/
def cmpHolds : Cmp → Int → Prop
  | .eq, d => d = 0
  | .ne, d => d ≠ 0
  | .gt, d => d = 1
  | .ge, d => d ≥ 0
  | .lt, d => d = -1
  | .le, d => d ≤ 0

def evalAnd (vrs : List versionRange) (v : Version) : Bool :=
  vrs.all (fun vr => rangeFunc vr v)

def evalOr (groups : List (List versionRange)) (v : Version) : Bool :=
  groups.any (fun g => evalAnd g v)

/-- The closure fold of `ParseRange`'s inner loop, over the built data. -/
def andFold (vrs : List versionRange) (acc : Option Range) : Option Range :=
  vrs.foldl
    (fun a vr => some (match a with | none => rangeFunc vr | some f => Range.AND f (rangeFunc vr)))
    acc

/-- The closure fold of `ParseRange`'s outer loop, over the built data. -/
def orFold (groups : List (List versionRange)) (acc : Option Range) : Option Range :=
  groups.foldl
    (fun orFn g =>
      match orFn, andFold g none with
      | none, a => a
      | some f, some a => some (Range.OR f a)
      | some f, none => some f)
    acc

/-- Apply a possibly-nil Range (a nil Go func evaluates no version). -/
def applyOpt (r : Option Range) (v : Version) : Bool :=
  match r with
  | none => false
  | some f => f v

/-! ## Spec-side definitions for the refinement claims (each transcribes the
    wording of the spec / claim, to be compared with the code-side function) -/

def natStr (n : Nat) : List Char := (Nat.repr n).data

/-- The spec's lower bound for `<xrangeA> - <xrangeB>`: clause dropped when
    A's major is a wildcard; `>=M.0.0` when A's minor is; `>=M.m.0` when A's
    patch is; else `>=` plus A literally. -/
def hyphenLowerSpec (h : HCaps) : List Char :=
  if isX h.fCaps.M then []
  else if isX h.fCaps.m then lit ">=" ++ h.fCaps.M ++ lit ".0.0"
  else if isX h.fCaps.p then lit ">=" ++ h.fCaps.M ++ lit "." ++ h.fCaps.m ++ lit ".0"
  else lit ">=" ++ h.fromLit

/-- The spec's upper bound for `<xrangeA> - <xrangeB>`: clause dropped when
    B's major is a wildcard; `<(M+1).0.0` when B's minor is; `<M.(m+1).0`
    when B's patch is; `<=` plus B including its prerelease when B has one;
    else `<=` plus B literally. -/
def hyphenUpperSpec (h : HCaps) : List Char :=
  if isX h.tCaps.M then []
  else if isX h.tCaps.m then lit "<" ++ natStr (numVal h.tCaps.M + 1) ++ lit ".0.0"
  else if isX h.tCaps.p then
    lit "<" ++ h.tCaps.M ++ lit "." ++ natStr (numVal h.tCaps.m + 1) ++ lit ".0"
  else if h.tCaps.pr ≠ [] then
    lit "<=" ++ h.tCaps.M ++ lit "." ++ h.tCaps.m ++ lit "." ++ h.tCaps.p ++ lit "-" ++ h.tCaps.pr
  else lit "<=" ++ h.toLit

/-- The spec's hyphen expansion `>=lowerBound(A) upperBound(B)`, dropped
    clauses removed together with the separating space. -/
def hyphenSpec (h : HCaps) : List Char :=
  trimSpaceL (hyphenLowerSpec h ++ lit " " ++ hyphenUpperSpec h)

/-- The spec's caret expansion for `^M.m.p[-pr]`. -/
def caretSpec (c : XCaps) : List Char :=
  if isX c.M then []
  else if isX c.m then
    lit ">=" ++ c.M ++ lit ".0.0 <" ++ natStr (numVal c.M + 1) ++ lit ".0.0"
  else if isX c.p then
    if numVal c.M = 0 then
      lit ">=" ++ c.M ++ lit "." ++ c.m ++ lit ".0 <" ++ c.M ++ lit "." ++ natStr (numVal c.m + 1) ++ lit ".0"
    else lit ">=" ++ c.M ++ lit "." ++ c.m ++ lit ".0 <" ++ natStr (numVal c.M + 1) ++ lit ".0.0"
  else
    (lit ">=" ++ c.M ++ lit "." ++ c.m ++ lit "." ++ c.p ++
       (if c.pr ≠ [] then lit "-" ++ c.pr else [])) ++
    (lit " " ++
      (if numVal c.M = 0 then
        if numVal c.m ≠ 0 then lit "<" ++ c.M ++ lit "." ++ natStr (numVal c.m + 1) ++ lit ".0"
        else lit "<" ++ c.M ++ lit "." ++ c.m ++ lit "." ++ natStr (numVal c.p + 1)
       else lit "<" ++ natStr (numVal c.M + 1) ++ lit ".0.0"))

/-- The spec's tilde expansion for `~M[.m[.p[-pr]]]`. -/
def tildeSpec (c : XCaps) : List Char :=
  if isX c.M then []
  else if isX c.m then
    lit ">=" ++ c.M ++ lit ".0.0 <" ++ natStr (numVal c.M + 1) ++ lit ".0.0"
  else if isX c.p then
    lit ">=" ++ c.M ++ lit "." ++ c.m ++ lit ".0 <" ++ c.M ++ lit "." ++ natStr (numVal c.m + 1) ++ lit ".0"
  else
    lit ">=" ++ c.M ++ lit "." ++ c.m ++ lit "." ++ c.p ++
      (if c.pr ≠ [] then lit "-" ++ c.pr else []) ++
      lit " <" ++ c.M ++ lit "." ++ natStr (numVal c.m + 1) ++ lit ".0"

/-- The spec's "next unit up" for an x-range with a relational operator:
    `(M+1).0.0` when the minor is a wildcard, else `M.(m+1).0`. -/
def xrangeNextUp (c : XCaps) : List Char :=
  if isX c.m then natStr (numVal c.M + 1) ++ lit ".0.0"
  else c.M ++ lit "." ++ natStr (numVal c.m + 1) ++ lit ".0"

/-- Well-formedness of one capture: a wildcard or a strict numeral whose
    successor stays within `int64` (the numeric range within which the claims
    describe the increments; the boundary behavior is the subject of the
    overflow claim). -/
def XOk (s : List Char) : Prop :=
  isX s = true ∨ (isStrictNum s = true ∧ (numVal s : Int) + 1 ≤ maxInt64)

def CapsOk (c : XCaps) : Prop := XOk c.M ∧ XOk c.m ∧ XOk c.p

/-! ## Canonical token sequences (for the idempotence claim) -/

/-- A canonical comparator token: one of the operators `>=`, `<=`, `>`, `<`,
    `=` (or none) followed by a fully specified `M.m.p` version. -/
def CanonTok (t : List Char) : Prop :=
  ∃ op n1 n2 n3,
    op ∈ [([] : List Char), lit "=", lit "<", lit ">", lit "<=", lit ">="] ∧
    isStrictNum n1 = true ∧ isStrictNum n2 = true ∧ isStrictNum n3 = true ∧
    t = op ++ n1 ++ '.' :: n2 ++ '.' :: n3

/-- The characters a canonical token may contain. -/
def CanonCh (c : Char) : Bool :=
  isDigitCh c || c = '.' || c = '<' || c = '>' || c = '='

/-- A space-separated token sequence, as a single string. -/
def joinTokens : List (List Char) → List Char
  | [] => []
  | [t] => t
  | t :: t2 :: ts => t ++ ' ' :: joinTokens (t2 :: ts)

/-- A token of the normalized form fails the predicate builder: its operator
    part is not one of the recognized comparators, or its version part does
    not parse (or no version part can be found at all). -/
def tokenBadB (tok : List Char) : Bool :=
  match splitCompVer tok with
  | .error _ => true
  | .ok (o, vs) =>
    (parseComparator o).isNone ||
      (match parseVersion vs with | .error _ => true | .ok _ => false)

/-- Every alternative a parser returns decomposes the input into the consumed
    characters followed by the remaining input. -/
def PInv {α : Type} (p : Parser α) : Prop :=
  ∀ s x, x ∈ p s → x.2.1 ++ x.2.2 = s

/-! # Theorems -/

/-! ## The consumed/rest invariant for every parser of the grammar -/

theorem pinv_pure {α : Type} (a : α) : PInv (pPure a) := by
  intro s x hx
  simp only [pPure, List.mem_singleton] at hx
  subst hx
  rfl

theorem pinv_char (c : Char) : PInv (pChar c) := by
  intro s x hx
  cases s with
  | nil => simp [pChar] at hx
  | cons y ys =>
    simp only [pChar] at hx
    split at hx
    · simp only [List.mem_singleton] at hx
      subst hx
      rfl
    · simp at hx

theorem pinv_class (f : Char → Bool) : PInv (pClass f) := by
  intro s x hx
  cases s with
  | nil => simp [pClass] at hx
  | cons y ys =>
    simp only [pClass] at hx
    split at hx
    · simp only [List.mem_singleton] at hx
      subst hx
      rfl
    · simp at hx

theorem pinv_bind {α β : Type} {p : Parser α} {f : α → Parser β}
    (hp : PInv p) (hf : ∀ a, PInv (f a)) : PInv (pBind p f) := by
  intro s x hx
  simp only [pBind, List.mem_flatMap, List.mem_map] at hx
  obtain ⟨y, hy, z, hz, rfl⟩ := hx
  have h1 := hp s y hy
  have h2 := hf y.1 y.2.2 z hz
  simp only [List.append_assoc, h2, h1]

theorem pinv_map {α β : Type} {p : Parser α} (f : α → β) (hp : PInv p) : PInv (pMap p f) := by
  intro s x hx
  simp only [pMap, List.mem_map] at hx
  obtain ⟨y, hy, rfl⟩ := hx
  exact hp s y hy

theorem pinv_alt {α : Type} {p q : Parser α} (hp : PInv p) (hq : PInv q) : PInv (pAlt p q) := by
  intro s x hx
  rcases List.mem_append.mp hx with h | h
  · exact hp s x h
  · exact hq s x h

theorem pinv_opt {α : Type} {p : Parser α} (d : α) (hp : PInv p) : PInv (pOpt p d) :=
  pinv_alt hp (pinv_pure d)

theorem pinv_star (f : Char → Bool) : PInv (pStarClass f) := by
  intro s x hx
  simp only [pStarClass, List.mem_map] at hx
  obtain ⟨i, _, rfl⟩ := hx
  simp only [← List.append_assoc, List.take_append_drop, List.takeWhile_append_dropWhile]

theorem pinv_plus (f : Char → Bool) : PInv (pPlusClass f) := by
  intro s x hx
  simp only [pPlusClass, List.mem_map] at hx
  obtain ⟨i, _, rfl⟩ := hx
  simp only [← List.append_assoc, List.take_append_drop, List.takeWhile_append_dropWhile]

theorem pinv_many {α : Type} {p : Parser α} (hp : PInv p) :
    ∀ fuel, PInv (pManyAux p fuel) := by
  intro fuel
  induction fuel with
  | zero => exact pinv_pure []
  | succ n ih => exact pinv_alt (pinv_bind hp (fun a => pinv_map _ ih)) (pinv_pure [])

theorem pinv_withConsumed {α : Type} {p : Parser α} (hp : PInv p) : PInv (pWithConsumed p) := by
  intro s x hx
  simp only [pWithConsumed, List.mem_map] at hx
  obtain ⟨y, hy, rfl⟩ := hx
  exact hp s y hy

theorem pinv_numericId : PInv pNumericId :=
  pinv_alt (pinv_map _ (pinv_char '0'))
    (pinv_bind (pinv_class isNonZeroDigit) (fun _ => pinv_map _ (pinv_star isDigitCh)))

theorem pinv_xid : PInv pXId :=
  pinv_alt pinv_numericId
    (pinv_alt (pinv_map _ (pinv_char 'x'))
      (pinv_alt (pinv_map _ (pinv_char 'X')) (pinv_map _ (pinv_char '*'))))

theorem pinv_nonNumericId : PInv pNonNumericId :=
  pinv_bind (pinv_star isDigitCh)
    (fun _ => pinv_bind (pinv_class isAlphaDash) (fun _ => pinv_map _ (pinv_star isAlnumDash)))

theorem pinv_prId : PInv pPrId := pinv_alt pinv_numericId pinv_nonNumericId

theorem pinv_dotted {p : Parser (List Char)} (hp : PInv p) (fuel : Nat) :
    PInv (pDotted p fuel) :=
  pinv_bind hp (fun _ =>
    pinv_map _ (pinv_many (pinv_bind (pinv_char '.') (fun _ => pinv_map _ hp)) fuel))

theorem pinv_prerelease (fuel : Nat) : PInv (pPrerelease fuel) :=
  pinv_bind (pinv_char '-') (fun _ => pinv_dotted pinv_prId fuel)

theorem pinv_build (fuel : Nat) : PInv (pBuild fuel) :=
  pinv_bind (pinv_char '+') (fun _ => pinv_dotted (pinv_plus isAlnumDash) fuel)

theorem pinv_prIdLoose : PInv pPrIdLoose := pinv_alt (pinv_plus isDigitCh) pinv_nonNumericId

theorem pinv_prereleaseLoose (fuel : Nat) : PInv (pPrereleaseLoose fuel) :=
  pinv_bind (pinv_opt _ (pinv_map _ (pinv_char '-'))) (fun _ => pinv_dotted pinv_prIdLoose fuel)

theorem pinv_xrTail2 (fuel : Nat) (M m : List Char) : PInv (pXRangeTail2 fuel M m) :=
  pinv_bind (pinv_char '.') (fun _ =>
    pinv_bind pinv_xid (fun _ =>
      pinv_bind (pinv_opt _ (pinv_prerelease fuel)) (fun _ =>
        pinv_map _ (pinv_opt _ (pinv_build fuel)))))

theorem pinv_xrTail1 (fuel : Nat) (M : List Char) : PInv (pXRangeTail1 fuel M) :=
  pinv_bind (pinv_char '.') (fun _ =>
    pinv_bind pinv_xid (fun m => pinv_opt _ (pinv_xrTail2 fuel M m)))

theorem pinv_xrangePlain (fuel : Nat) : PInv (pXRangePlain fuel) :=
  pinv_bind (pinv_star isVEqSpace) (fun _ =>
    pinv_bind pinv_xid (fun M => pinv_opt _ (pinv_xrTail1 fuel M)))

theorem pinv_gtlt : PInv pGtlt :=
  pinv_bind (pinv_opt _ (pinv_alt (pinv_map _ (pinv_char '<')) (pinv_map _ (pinv_char '>'))))
    (fun _ => pinv_map _ (pinv_opt _ (pinv_map _ (pinv_char '='))))

theorem pinv_loosePlainU (fuel : Nat) : PInv (pLoosePlainU fuel) :=
  pinv_bind (pinv_star isVEqSpace) (fun _ =>
  pinv_bind (pinv_plus isDigitCh) (fun _ =>
  pinv_bind (pinv_char '.') (fun _ =>
  pinv_bind (pinv_plus isDigitCh) (fun _ =>
  pinv_bind (pinv_char '.') (fun _ =>
  pinv_bind (pinv_plus isDigitCh) (fun _ =>
  pinv_bind (pinv_opt _ (pinv_prereleaseLoose fuel)) (fun _ =>
  pinv_map _ (pinv_opt _ (pinv_build fuel)))))))))

/-! ## Failure lemmas: a pattern that needs a character the input lacks -/

theorem pBind_nil_left {α β : Type} {p : Parser α} (f : α → Parser β) {s : List Char}
    (h : p s = []) : pBind p f s = [] := by
  simp [pBind, h]

theorem pBind_nil_right {α β : Type} {p : Parser α} {f : α → Parser β} {s : List Char}
    (h : ∀ x ∈ p s, f x.1 x.2.2 = []) : pBind p f s = [] := by
  simp only [pBind]
  rw [List.flatMap_eq_nil_iff]
  intro x hx
  rw [h x hx]
  rfl

theorem pChar_nil_of_not_mem {c : Char} {s : List Char} (h : c ∉ s) : pChar c s = [] := by
  cases s with
  | nil => rfl
  | cons y ys =>
    simp only [pChar, if_neg (fun he : y = c => h (he ▸ List.mem_cons_self y ys))]

theorem pChar_nil_of_head {c : Char} {s : List Char} (h : s.head? ≠ some c) : pChar c s = [] := by
  cases s with
  | nil => rfl
  | cons y ys =>
    simp only [List.head?_cons, ne_eq, Option.some.injEq] at h
    simp only [pChar, if_neg h]

theorem pMap_nil {α β : Type} {p : Parser α} (f : α → β) {s : List Char} (h : p s = []) :
    pMap p f s = [] := by
  simp [pMap, h]

theorem rest_subset {α : Type} {p : Parser α} (hp : PInv p) {s : List Char} {x}
    (hx : x ∈ p s) {c : Char} (hc : c ∈ x.2.2) : c ∈ s := by
  rw [← hp s x hx]
  exact List.mem_append_right _ hc

theorem pTildeTrim_nil {s : List Char} (h : '~' ∉ s) : pTildeTrim s = [] := by
  apply pBind_nil_right
  intro x hx
  apply pBind_nil_left
  exact pChar_nil_of_not_mem (fun hm => h (rest_subset (pinv_star isSpaceRe) hx hm))

theorem pCaretTrim_nil {s : List Char} (h : '^' ∉ s) : pCaretTrim s = [] := by
  apply pBind_nil_right
  intro x hx
  apply pBind_nil_left
  exact pChar_nil_of_not_mem (fun hm => h (rest_subset (pinv_star isSpaceRe) hx hm))

theorem pStarPat_nil {s : List Char} (h : '*' ∉ s) : pStarPat s = [] := by
  apply pBind_nil_right
  intro x1 h1
  apply pBind_nil_right
  intro x2 h2
  apply pBind_nil_right
  intro x3 h3
  apply pMap_nil
  apply pChar_nil_of_not_mem
  intro hm
  exact h (rest_subset (pinv_opt _ (pinv_alt (pinv_map _ (pinv_char '<')) (pinv_map _ (pinv_char '>')))) h1
    (rest_subset (pinv_opt _ (pinv_map _ (pinv_char '='))) h2
      (rest_subset (pinv_star isSpaceRe) h3 hm)))

theorem pHyphen_nil {s : List Char} (fuel : Nat) (h : '-' ∉ s) : pHyphen fuel s = [] := by
  apply pBind_nil_right
  intro x1 h1
  apply pBind_nil_right
  intro x2 h2
  apply pBind_nil_right
  intro x3 h3
  apply pBind_nil_left
  apply pChar_nil_of_not_mem
  intro hm
  exact h (rest_subset (pinv_star isSpaceRe) h1
    (rest_subset (pinv_withConsumed (pinv_xrangePlain fuel)) h2
      (rest_subset (pinv_plus isSpaceRe) h3 hm)))

theorem matchHyphen_eq_none {s : List Char} (h : '-' ∉ s) : matchHyphen s = none := by
  unfold matchHyphen
  rw [pHyphen_nil _ h]
  rfl

theorem hyphenReplaceL_id {s : List Char} (h : '-' ∉ s) : hyphenReplaceL s = s := by
  unfold hyphenReplaceL
  rw [matchHyphen_eq_none h]

theorem matchTilde_eq_none {s : List Char} (h : s.head? ≠ some '~') : matchTilde s = none := by
  unfold matchTilde pTilde
  rw [pBind_nil_left _ (pChar_nil_of_head h)]
  rfl

theorem matchCaret_eq_none {s : List Char} (h : s.head? ≠ some '^') : matchCaret s = none := by
  unfold matchCaret pCaret
  rw [pBind_nil_left _ (pChar_nil_of_head h)]
  rfl

theorem replaceTildeL_id {s : List Char} (h : s.head? ≠ some '~') : replaceTildeL s = s := by
  unfold replaceTildeL
  rw [matchTilde_eq_none h]

theorem replaceCaretL_id {s : List Char} (h : s.head? ≠ some '^') : replaceCaretL s = s := by
  unfold replaceCaretL
  rw [matchCaret_eq_none h]

/-- A scan over a string none of whose suffixes match leaves it unchanged. -/
theorem replaceAllAux_id {α : Type} {p : Parser α} {repl : α → List Char} {S : List Char}
    (hp : ∀ r : List Char, (∀ c ∈ r, c ∈ S) → headMatch p r = none) :
    ∀ fuel (s : List Char), (∀ c ∈ s, c ∈ S) → replaceAllAux p repl fuel s = s := by
  intro fuel
  induction fuel with
  | zero => intro s _; rfl
  | succ n ih =>
    intro s hs
    cases s with
    | nil => rfl
    | cons c cs =>
      simp only [replaceAllAux, hp (c :: cs) hs]
      rw [ih cs (fun d hd => hs d (List.mem_cons_of_mem c hd))]

theorem tildeTrim_id {s : List Char} (h : '~' ∉ s) : tildeTrim s = s := by
  unfold tildeTrim replaceAll
  apply replaceAllAux_id (S := s)
  · intro r hr
    unfold headMatch
    rw [pTildeTrim_nil (fun hm => h (hr '~' hm))]
    rfl
  · intro c hc
    exact hc

theorem caretTrim_id {s : List Char} (h : '^' ∉ s) : caretTrim s = s := by
  unfold caretTrim replaceAll
  apply replaceAllAux_id (S := s)
  · intro r hr
    unfold headMatch
    rw [pCaretTrim_nil (fun hm => h (hr '^' hm))]
    rfl
  · intro c hc
    exact hc

theorem starReplace_id {s : List Char} (h : '*' ∉ s) : starReplace s = s := by
  unfold starReplace replaceAll
  apply replaceAllAux_id (S := s)
  · intro r hr
    unfold headMatch
    rw [pStarPat_nil (fun hm => h (hr '*' hm))]
    rfl
  · intro c hc
    exact hc

/-! ## The composed closures evaluate as OR of ANDs of comparators -/

theorem compFn_eq_true_iff (c : Cmp) (v1 v2 : Version) :
    compFn c v1 v2 = true ↔ cmpHolds c (Version.compare v1 v2) := by
  cases c <;> simp [compFn, cmpHolds]

theorem andFold_cons (vr : versionRange) (vrs : List versionRange) (acc : Option Range) :
    andFold (vr :: vrs) acc =
      andFold vrs (some (match acc with | none => rangeFunc vr | some f => Range.AND f (rangeFunc vr))) :=
  rfl

theorem orFold_cons (g : List versionRange) (gs : List (List versionRange)) (acc : Option Range) :
    orFold (g :: gs) acc =
      orFold gs
        (match acc, andFold g none with
         | none, a => a
         | some f, some a => some (Range.OR f a)
         | some f, none => some f) :=
  rfl

theorem parseGroupAnd_eq (toks : List (List Char)) :
    ∀ acc, parseGroupAnd toks acc = (buildGroupVRs toks).map (fun vrs => andFold vrs acc) := by
  induction toks with
  | nil => intro acc; rfl
  | cons ap rest ih =>
    intro acc
    cases hsp : splitCompVer ap with
    | error e => simp [parseGroupAnd, buildGroupVRs, hsp, Except.map]
    | ok ov =>
      obtain ⟨opStr, vStr⟩ := ov
      cases hb : buildVersionRange opStr vStr with
      | error e => simp [parseGroupAnd, buildGroupVRs, hsp, hb, Except.map]
      | ok vr =>
        simp only [parseGroupAnd, buildGroupVRs, hsp, hb]
        rw [ih]
        cases hr : buildGroupVRs rest with
        | error e => simp [hr, Except.map]
        | ok vrs => simp [hr, Except.map, andFold_cons]

theorem parseOrGroups_eq (groups : List (List (List Char))) :
    ∀ acc, parseOrGroups groups acc = (buildGroups groups).map (fun gs => orFold gs acc) := by
  induction groups with
  | nil => intro acc; rfl
  | cons g gs ih =>
    intro acc
    simp only [parseOrGroups, buildGroups]
    rw [parseGroupAnd_eq]
    cases hg : buildGroupVRs g with
    | error e => simp [Except.map]
    | ok vrs =>
      simp only [Except.map]
      rw [ih]
      cases hr : buildGroups gs with
      | error e => simp [hr, Except.map]
      | ok rest => simp [hr, Except.map, orFold_cons]

theorem andFold_some_apply (vrs : List versionRange) :
    ∀ (f : Range) (v : Version),
      applyOpt (andFold vrs (some f)) v = (f v && evalAnd vrs v) := by
  induction vrs with
  | nil => intro f v; simp [andFold, applyOpt, evalAnd]
  | cons vr vrs ih =>
    intro f v
    rw [andFold_cons, ih]
    simp [evalAnd, applyOpt, Range.AND, Bool.and_assoc]

theorem andFold_some_isSome (vrs : List versionRange) :
    ∀ f : Range, ∃ g, andFold vrs (some f) = some g := by
  induction vrs with
  | nil => intro f; exact ⟨f, rfl⟩
  | cons vr vrs ih => intro f; rw [andFold_cons]; exact ih _

theorem andFold_none_apply {vrs : List versionRange} (h : vrs ≠ []) (v : Version) :
    applyOpt (andFold vrs none) v = evalAnd vrs v := by
  cases vrs with
  | nil => exact absurd rfl h
  | cons vr rest =>
    rw [andFold_cons, andFold_some_apply]
    simp [evalAnd, rangeFunc]

theorem andFold_none_isSome {vrs : List versionRange} (h : vrs ≠ []) :
    ∃ g, andFold vrs none = some g := by
  cases vrs with
  | nil => exact absurd rfl h
  | cons vr rest => rw [andFold_cons]; exact andFold_some_isSome _ _

theorem orFold_apply (groups : List (List versionRange)) :
    ∀ (acc : Option Range) (v : Version), (∀ g ∈ groups, g ≠ []) →
      applyOpt (orFold groups acc) v = (applyOpt acc v || evalOr groups v) := by
  induction groups with
  | nil => intro acc v _; simp [orFold, evalOr]
  | cons g gs ih =>
    intro acc v hne
    have hg : g ≠ [] := hne g (List.mem_cons_self g gs)
    obtain ⟨a, ha⟩ := andFold_none_isSome hg
    have hav : a v = evalAnd g v := by
      have := andFold_none_apply hg v
      rw [ha] at this
      exact this
    rw [orFold_cons]
    have hgs : ∀ g' ∈ gs, g' ≠ [] := fun g' hg' => hne g' (List.mem_cons_of_mem g hg')
    cases acc with
    | none =>
      rw [ha, ih (some a) v hgs]
      simp [applyOpt, evalOr, hav]
    | some f =>
      rw [ha, ih (some (Range.OR f a)) v hgs]
      simp [applyOpt, evalOr, Range.OR, hav, Bool.or_assoc]

theorem orFold_some_acc (gs : List (List versionRange)) :
    ∀ f : Range, ∃ g', orFold gs (some f) = some g' := by
  induction gs with
  | nil => intro f; exact ⟨f, rfl⟩
  | cons g gs ih =>
    intro f
    rw [orFold_cons]
    cases h : andFold g none with
    | none => exact ih f
    | some a => exact ih _

theorem orFold_none_of_cons {g : List versionRange} {gs : List (List versionRange)}
    (hg : g ≠ []) : ∃ f, orFold (g :: gs) none = some f := by
  rw [orFold_cons]
  obtain ⟨a, ha⟩ := andFold_none_isSome hg
  rw [ha]
  exact orFold_some_acc gs a

/-! ## Every stage always yields at least one piece / token -/

theorem consHead_ne_nil (c : Char) (l : List (List Char)) : consHead c l ≠ [] := by
  cases l <;> simp [consHead]

theorem splitWsF_ne_nil : ∀ (b : Bool) (s : List Char), splitWsF b s ≠ [] := by
  intro b s
  induction s generalizing b with
  | nil => simp [splitWsF]
  | cons c cs ih =>
    simp only [splitWsF]
    split
    · split
      · exact ih true
      · simp
    · exact consHead_ne_nil _ _

theorem splitWs_ne_nil (s : List Char) : splitWs s ≠ [] := splitWsF_ne_nil false s

theorem parseRangeL_ne_nil (s : List Char) : parseRangeL s ≠ [] := by
  unfold parseRangeL
  exact splitWs_ne_nil _

theorem splitOrAux_ne_nil : ∀ (fuel : Nat) (s : List Char), splitOrAux fuel s ≠ [] := by
  intro fuel
  induction fuel with
  | zero => intro s; simp [splitOrAux]
  | succ n ih =>
    intro s
    cases s with
    | nil => simp [splitOrAux]
    | cons c cs =>
      simp only [splitOrAux]
      cases headMatch pOrSep (c :: cs) with
      | none => exact consHead_ne_nil _ _
      | some m =>
        obtain ⟨a, consumed, rest⟩ := m
        by_cases hc : consumed = []
        · simp only [if_pos hc]
          exact consHead_ne_nil _ _
        · simp only [if_neg hc]
          simp

theorem splitOr_ne_nil (s : List Char) : splitOr s ≠ [] := splitOrAux_ne_nil _ s

/-- Because normalization never yields an empty token list, `expandedParts`
    keeps every OR part. -/
theorem expandedParts_eq (s : List Char) :
    expandedParts s = (splitOr s).map (fun part => parseRangeL (trimSpaceL part)) := by
  unfold expandedParts
  have h : ∀ (l : List (List Char)) (acc : List (List (List Char))),
      l.foldl
        (fun acc part =>
          if (parseRangeL part).length > 0 then acc ++ [parseRangeL (trimSpaceL part)] else acc)
        acc = acc ++ l.map (fun part => parseRangeL (trimSpaceL part)) := by
    intro l
    induction l with
    | nil => intro acc; simp
    | cons p ps ih =>
      intro acc
      have hp : (parseRangeL p).length > 0 :=
        List.length_pos.mpr (parseRangeL_ne_nil p)
      simp only [List.foldl_cons, List.map_cons, if_pos hp]
      rw [ih]
      simp
  rw [h]
  simp

theorem expandedParts_ne_nil (s : List Char) : expandedParts s ≠ [] := by
  rw [expandedParts_eq]
  simp only [ne_eq, List.map_eq_nil_iff]
  exact splitOr_ne_nil s

theorem expandedParts_mem_ne_nil (s : List Char) :
    ∀ g ∈ expandedParts s, g ≠ [] := by
  rw [expandedParts_eq]
  intro g hg
  obtain ⟨part, _, rfl⟩ := List.mem_map.mp hg
  exact parseRangeL_ne_nil _

theorem buildGroupVRs_ok_length {toks : List (List Char)} :
    ∀ {vrs : List versionRange}, buildGroupVRs toks = .ok vrs → vrs.length = toks.length := by
  induction toks with
  | nil =>
    intro vrs h
    simp only [buildGroupVRs] at h
    cases h
    rfl
  | cons ap rest ih =>
    intro vrs h
    cases hsp : splitCompVer ap with
    | error e => simp [buildGroupVRs, hsp] at h
    | ok ov =>
      obtain ⟨opStr, vStr⟩ := ov
      cases hb : buildVersionRange opStr vStr with
      | error e => simp [buildGroupVRs, hsp, hb] at h
      | ok vr =>
        cases hr : buildGroupVRs rest with
        | error e => simp [buildGroupVRs, hsp, hb, hr] at h
        | ok vrs' =>
          simp only [buildGroupVRs, hsp, hb, hr, Except.ok.injEq] at h
          subst h
          simp [ih hr]

theorem buildGroups_mem {gs : List (List (List Char))} :
    ∀ {groups : List (List versionRange)}, buildGroups gs = .ok groups →
      ∀ g ∈ groups, ∃ toks ∈ gs, buildGroupVRs toks = .ok g := by
  induction gs with
  | nil =>
    intro groups h
    simp only [buildGroups] at h
    cases h
    simp
  | cons t ts ih =>
    intro groups h g hg
    cases ht : buildGroupVRs t with
    | error e => simp [buildGroups, ht] at h
    | ok vrs =>
      cases hr : buildGroups ts with
      | error e => simp [buildGroups, ht, hr] at h
      | ok rest =>
        simp only [buildGroups, ht, hr, Except.ok.injEq] at h
        subst h
        rcases List.mem_cons.mp hg with rfl | hmem
        · exact ⟨t, List.mem_cons_self t ts, ht⟩
        · obtain ⟨toks, htoks, hb⟩ := ih hr g hmem
          exact ⟨toks, List.mem_cons_of_mem t htoks, hb⟩

theorem groups_nonempty_of_ok {raw : String} {groups : List (List versionRange)}
    (h : ParseRangeGroups raw = .ok groups) : ∀ g ∈ groups, g ≠ [] := by
  intro g hg
  obtain ⟨toks, htoks, hb⟩ := buildGroups_mem h g hg
  have hlen := buildGroupVRs_ok_length hb
  have htne : toks ≠ [] := expandedParts_mem_ne_nil raw.data toks htoks
  intro hnil
  apply htne
  subst hnil
  exact List.length_eq_zero.mp hlen.symm

theorem ParseRange_of_groups {raw : String} {groups : List (List versionRange)}
    (h : ParseRangeGroups raw = .ok groups) :
    ParseRange raw = .ok (orFold groups none) := by
  unfold ParseRange ParseRangeL
  rw [parseOrGroups_eq]
  unfold ParseRangeGroups at h
  rw [h]
  rfl

theorem buildGroups_ok_length {gs : List (List (List Char))} :
    ∀ {groups : List (List versionRange)}, buildGroups gs = .ok groups →
      groups.length = gs.length := by
  induction gs with
  | nil =>
    intro groups h
    simp only [buildGroups] at h
    cases h
    rfl
  | cons t ts ih =>
    intro groups h
    cases ht : buildGroupVRs t with
    | error e => simp [buildGroups, ht] at h
    | ok vrs =>
      cases hr : buildGroups ts with
      | error e => simp [buildGroups, ht, hr] at h
      | ok rest =>
        simp only [buildGroups, ht, hr, Except.ok.injEq] at h
        subst h
        simp [ih hr]

/-- Claim C1: for every range string that `ParseRange` parses successfully
    and every Version `v`, the built Range evaluates to `true` at `v` iff at
    least one OR group has all of its comparators true against `v` under the
    claim's comparator table over the three-way compare; in particular
    `>1.0.0 <2.0.0 || >=3.0.0` matches 1.1.1, 3.0.0 and 3.5.0 but not 1.0.0,
    2.0.0 or 2.9.9. -/
theorem claim1_parse_range_or_and_semantics :
    (∀ (raw : String) (groups : List (List versionRange)) (v : Version),
        ParseRangeGroups raw = .ok groups →
        (rangeSatisfies raw v = some true ↔
          ∃ g ∈ groups, ∀ vr ∈ g, cmpHolds vr.c (Version.compare v vr.v)))
    ∧ rangeSatisfies ">1.0.0 <2.0.0 || >=3.0.0" (mkV 1 1 1) = some true
    ∧ rangeSatisfies ">1.0.0 <2.0.0 || >=3.0.0" (mkV 3 0 0) = some true
    ∧ rangeSatisfies ">1.0.0 <2.0.0 || >=3.0.0" (mkV 3 5 0) = some true
    ∧ rangeSatisfies ">1.0.0 <2.0.0 || >=3.0.0" (mkV 1 0 0) = some false
    ∧ rangeSatisfies ">1.0.0 <2.0.0 || >=3.0.0" (mkV 2 0 0) = some false
    ∧ rangeSatisfies ">1.0.0 <2.0.0 || >=3.0.0" (mkV 2 9 9) = some false := by
  refine ⟨?_, by decide, by decide, by decide, by decide, by decide, by decide⟩
  intro raw groups v hok
  have hne := groups_nonempty_of_ok hok
  have hpr := ParseRange_of_groups hok
  cases horf : orFold groups none with
  | none =>
    have hgnil : groups = [] := by
      cases groups with
      | nil => rfl
      | cons g gs =>
        obtain ⟨f, hf⟩ := orFold_none_of_cons (hne g (List.mem_cons_self g gs))
        rw [hf] at horf
        cases horf
    subst hgnil
    simp [rangeSatisfies, hpr, horf]
  | some f =>
    have hs : rangeSatisfies raw v = some (f v) := by
      rw [horf] at hpr
      simp [rangeSatisfies, hpr]
    have happ : f v = evalOr groups v := by
      have h := orFold_apply groups none v hne
      rw [horf] at h
      simpa [applyOpt] using h
    rw [hs]
    simp only [Option.some.injEq, happ]
    unfold evalOr evalAnd
    simp only [List.any_eq_true, List.all_eq_true, rangeFunc, compFn_eq_true_iff]

theorem claim1_witness :
    rangeSatisfies ">=3.0.0" (mkV 3 5 0) = some true ↔
      ∃ g ∈ [[versionRange.mk (mkV 3 0 0) Cmp.ge]],
        ∀ vr ∈ g, cmpHolds vr.c (Version.compare (mkV 3 5 0) vr.v) :=
  claim1_parse_range_or_and_semantics.1 ">=3.0.0" [[⟨mkV 3 0 0, .ge⟩]] (mkV 3 5 0) (by rfl)

/-- Claim C10: the OR split always yields at least one segment, each segment
    normalizes to at least one token, and `ParseRange` returns exactly one of
    an error or a usable (non-nil) Range. -/
theorem claim10_total_or_error :
    (∀ s : String, ∃ p ps, splitOr s.data = p :: ps)
    ∧ (∀ s : String, ∃ t ts, parseRangeL s.data = t :: ts)
    ∧ (∀ s : String, (∃ e, ParseRange s = .error e) ∨ (∃ f, ParseRange s = .ok (some f))) := by
  refine ⟨?_, ?_, ?_⟩
  · intro s
    cases h : splitOr s.data with
    | nil => exact absurd h (splitOr_ne_nil s.data)
    | cons p ps => exact ⟨p, ps, rfl⟩
  · intro s
    cases h : parseRangeL s.data with
    | nil => exact absurd h (parseRangeL_ne_nil s.data)
    | cons t ts => exact ⟨t, ts, rfl⟩
  · intro s
    cases hb : buildGroups (expandedParts s.data) with
    | error e =>
      left
      refine ⟨e, ?_⟩
      unfold ParseRange ParseRangeL
      rw [parseOrGroups_eq, hb]
      rfl
    | ok groups =>
      right
      have hok : ParseRangeGroups s = .ok groups := hb
      have hlen := buildGroups_ok_length hb
      cases groups with
      | nil =>
        exfalso
        apply expandedParts_ne_nil s.data
        exact List.length_eq_zero.mp (hlen.symm.trans rfl)
      | cons g gs =>
        have hg : g ≠ [] := groups_nonempty_of_ok hok g (List.mem_cons_self g gs)
        obtain ⟨f, hf⟩ := (orFold_none_of_cons hg : ∃ f, orFold (g :: gs) none = some f)
        refine ⟨f, ?_⟩
        rw [ParseRange_of_groups hok, hf]

/-! ## A bad normalized token always fails the whole parse -/

theorem buildVersionRange_ok_parts {opStr vStr : List Char} {vr : versionRange}
    (h : buildVersionRange opStr vStr = .ok vr) :
    (∃ c, parseComparator opStr = some c) ∧ (∃ v, parseVersion vStr = .ok v) := by
  unfold buildVersionRange at h
  cases hc : parseComparator opStr with
  | none => rw [hc] at h; cases h
  | some c =>
    rw [hc] at h
    cases hv : parseVersion vStr with
    | error e => rw [hv] at h; cases h
    | ok v => exact ⟨⟨c, rfl⟩, ⟨v, rfl⟩⟩

theorem parseGroupAnd_ok_tokens {toks : List (List Char)} :
    ∀ {acc : Option Range} {r : Option Range}, parseGroupAnd toks acc = .ok r →
      ∀ tok ∈ toks, tokenBadB tok = false := by
  induction toks with
  | nil => intro acc r _ tok htok; simp at htok
  | cons ap rest ih =>
    intro acc r h tok htok
    cases hsp : splitCompVer ap with
    | error e => simp [parseGroupAnd, hsp] at h
    | ok ov =>
      obtain ⟨opStr, vStr⟩ := ov
      cases hb : buildVersionRange opStr vStr with
      | error e => simp [parseGroupAnd, hsp, hb] at h
      | ok vr =>
        simp only [parseGroupAnd, hsp, hb] at h
        rcases List.mem_cons.mp htok with rfl | hmem
        · obtain ⟨⟨c, hc⟩, ⟨v, hv⟩⟩ := buildVersionRange_ok_parts hb
          simp [tokenBadB, hsp, hc, hv]
        · exact ih h tok hmem

theorem parseOrGroups_ok_tokens {groups : List (List (List Char))} :
    ∀ {acc : Option Range} {r : Option Range}, parseOrGroups groups acc = .ok r →
      ∀ g ∈ groups, ∀ tok ∈ g, tokenBadB tok = false := by
  induction groups with
  | nil => intro acc r _ g hg; simp at hg
  | cons p rest ih =>
    intro acc r h g hg tok htok
    cases hp : parseGroupAnd p none with
    | error e => simp [parseOrGroups, hp] at h
    | ok andFn =>
      simp only [parseOrGroups, hp] at h
      rcases List.mem_cons.mp hg with rfl | hmem
      · exact parseGroupAnd_ok_tokens hp tok htok
      · exact ih h g hmem tok htok

/-- Claim C6: `ParseRange` returns an error whenever any normalized token has
    an unrecognized operator substring or a version substring the Version
    collaborator cannot parse; in particular `>=1.2.x.y` and `1.2.3 -` both
    yield a syntax error and never a partially built Range. -/
theorem claim6_error_on_bad_token :
    (∀ s : String, (∃ g ∈ expandedParts s.data, ∃ tok ∈ g, tokenBadB tok = true) →
        ∃ e, ParseRange s = .error e)
    ∧ parseFails ">=1.2.x.y" = true
    ∧ parseFails "1.2.3 -" = true := by
  refine ⟨?_, by decide, by decide⟩
  intro s hbad
  cases h : ParseRange s with
  | error e => exact ⟨e, rfl⟩
  | ok r =>
    exfalso
    obtain ⟨g, hg, tok, htok, hbadtok⟩ := hbad
    have h' : parseOrGroups (expandedParts s.data) none = .ok r := h
    rw [parseOrGroups_ok_tokens h' g hg tok htok] at hbadtok
    cases hbadtok

theorem claim6_witness : ∃ e, ParseRange ">=1.2.x.y" = .error e :=
  claim6_error_on_bad_token.1 ">=1.2.x.y" (by decide)

/-- Claim C9 (code-bug evidence): the tilde rewrite of a major version that
    is still within the native signed 64-bit range silently wraps `major+1`
    to a negative number and emits the wrong bound, instead of reporting an
    overflow error: the increments are neither exact up to the platform's
    native unsigned range nor checked. -/
theorem claim9_overflow_wraps :
    replaceTilde "~9223372036854775807" =
      ">=9223372036854775807.0.0 <-9223372036854775808.0.0" := by
  decide

/-- Claim C7 (counterexample): the segment `"x"` normalizes to `>=0.0.0`,
    which rejects the Version 0.0.0-alpha, and the empty segment `""` makes
    `ParseRange` fail instead of producing a match-all AND group — so not
    every Version is matched. -/
theorem claim7_counterexample :
    rangeSatisfies "x" ⟨0, 0, 0, [PreId.alnum (lit "alpha")], []⟩ = some false
    ∧ parseFails "" = true :=
  ⟨by decide, by decide⟩

/-- Claim C7 (amended): the wildcard-only segments `"x"` and `"*"` produce a
    Range (`>=0.0.0`) that matches every Version without a prerelease, while
    the empty segment `""` is rejected by `ParseRange` with an error. -/
theorem claim7_wildcard_segments_amended :
    (∀ v : Version, v.pre = [] →
        rangeSatisfies "x" v = some true ∧ rangeSatisfies "*" v = some true)
    ∧ parseFails "" = true := by
  refine ⟨?_, by decide⟩
  intro v hpre
  have hx : rangeSatisfies "x" v = some (compFn Cmp.ge v (mkV 0 0 0)) := rfl
  have hstar : rangeSatisfies "*" v = some (compFn Cmp.ge v (mkV 0 0 0)) := rfl
  have hge : compFn Cmp.ge v (mkV 0 0 0) = true := by
    obtain ⟨M, m, p, pre, b⟩ := v
    simp only at hpre
    subst hpre
    show decide (Version.compare ⟨M, m, p, [], b⟩ (mkV 0 0 0) ≥ 0) = true
    rw [decide_eq_true_eq]
    simp only [Version.compare, mkV, cmpNat]
    split_ifs <;> omega
  rw [hx, hstar, hge]
  exact ⟨rfl, rfl⟩

theorem claim7_witness : rangeSatisfies "x" (mkV 1 2 3) = some true :=
  (claim7_wildcard_segments_amended.1 (mkV 1 2 3) rfl).1

/-! ## Numeral facts bridging the Go integer rendering and the spec's `M+1` -/

theorem char_eq_of_toNat {c d : Char} (h : c.toNat = d.toNat) : c = d :=
  Char.eq_of_val_eq (UInt32.ext h)

theorem numVal_fold_le (cs : List Char) :
    ∀ acc : Nat, acc ≤ cs.foldl (fun acc c => acc * 10 + (c.toNat - '0'.toNat)) acc := by
  induction cs with
  | nil => intro acc; exact Nat.le_refl _
  | cons c cs ih =>
    intro acc
    calc acc ≤ acc * 10 + (c.toNat - '0'.toNat) := by omega
    _ ≤ _ := ih _

theorem isStrictNum_parts {s : List Char} (h : isStrictNum s = true) :
    s ≠ [] ∧ s.all isDigitCh = true ∧ (s.length = 1 ∨ s.head? ≠ some '0') := by
  unfold isStrictNum at h
  simp only [Bool.and_eq_true, Bool.or_eq_true, beq_iff_eq, bne_iff_ne, ne_eq] at h
  obtain ⟨⟨h1, h2⟩, h3⟩ := h
  refine ⟨?_, h2, h3⟩
  intro hnil
  subst hnil
  simp at h1

theorem strict_head_cases {s : List Char} (h : isStrictNum s = true) :
    s = ['0'] ∨ ∃ c cs, s = c :: cs ∧ 49 ≤ c.toNat ∧ (∀ d ∈ cs, isDigitCh d = true) := by
  obtain ⟨hne, hall, hshape⟩ := isStrictNum_parts h
  cases s with
  | nil => exact absurd rfl hne
  | cons c cs =>
    simp only [List.all_cons, Bool.and_eq_true] at hall
    have hc : 48 ≤ c.toNat := by
      have := hall.1
      unfold isDigitCh at this
      simp only [Bool.and_eq_true, decide_eq_true_eq] at this
      exact this.1
    by_cases hzero : c = '0'
    · subst hzero
      rcases hshape with hlen | hhd
      · left
        cases cs with
        | nil => rfl
        | cons d ds => simp at hlen
      · exfalso
        exact hhd rfl
    · right
      refine ⟨c, cs, rfl, ?_, fun d hd => by
        have := hall.2
        rw [List.all_eq_true] at this
        exact this d hd⟩
      rcases Nat.eq_or_lt_of_le hc with he | hl
      · exfalso
        have h0 : '0'.toNat = 48 := rfl
        exact hzero (char_eq_of_toNat (by omega))
      · omega

theorem strict_zero_iff {s : List Char} (h : isStrictNum s = true) :
    numVal s = 0 ↔ s = ['0'] := by
  constructor
  · intro hz
    rcases strict_head_cases h with hs | ⟨c, cs, rfl, hc, _⟩
    · exact hs
    · exfalso
      have hnv : numVal (c :: cs) =
          cs.foldl (fun acc d => acc * 10 + (d.toNat - '0'.toNat)) (c.toNat - '0'.toNat) := by
        simp [numVal]
      have hle := numVal_fold_le cs (c.toNat - '0'.toNat)
      have h0 : '0'.toNat = 48 := rfl
      omega
  · intro hs
    subst hs
    decide

theorem isX_false_of_strict {s : List Char} (h : isStrictNum s = true) : isX s = false := by
  obtain ⟨hne, hall, _⟩ := isStrictNum_parts h
  cases hx : isX s
  · rfl
  · exfalso
    unfold isX at hx
    simp only [Bool.or_eq_true, List.isEmpty_iff, decide_eq_true_eq] at hx
    rcases hx with ((h1 | h1) | h1) | h1 <;> subst h1
    · exact hne rfl
    · exact absurd hall (by decide)
    · exact absurd hall (by decide)
    · exact absurd hall (by decide)

/-- On an in-range strict numeral, the Go rendering of `Atoi`, `+1` at `int`
    and `Itoa` agrees with the spec's exact `M+1`. -/
theorem itoa_i64succ {s : List Char} (hne : s ≠ []) (hd : s.all isDigitCh = true)
    (hle : (numVal s : Int) + 1 ≤ maxInt64) :
    itoa (i64succ (atoiGo s)) = natStr (numVal s + 1) := by
  have h1 : atoiGo s = (numVal s : Int) := by
    unfold atoiGo
    rw [if_pos, if_neg]
    · unfold maxInt64 at hle ⊢
      omega
    · cases s with
      | nil => exact absurd rfl hne
      | cons c cs => simp [hd]
  rw [h1]
  have h2 : i64succ (numVal s : Int) = (numVal s : Int) + 1 := by
    unfold i64succ twoPow63
    unfold maxInt64 at hle
    have hmod : ((numVal s : Int) + 1 + 9223372036854775808) % (2 * 9223372036854775808) =
        (numVal s : Int) + 1 + 9223372036854775808 := by
      apply Int.emod_eq_of_lt
      · omega
      · omega
    rw [hmod]
    ring
  rw [h2]
  unfold itoa natStr
  rw [if_neg (by omega : ¬ ((numVal s : Int) + 1 < 0))]
  have h3 : ((numVal s : Int) + 1).toNat = numVal s + 1 := by omega
  rw [h3]

/-- The facts `XOk` provides on a non-wildcard capture. -/
theorem XOk_num {s : List Char} (hok : XOk s) (hx : ¬ isX s = true) :
    isStrictNum s = true ∧ s ≠ [] ∧ s.all isDigitCh = true ∧
      (numVal s : Int) + 1 ≤ maxInt64 := by
  rcases hok with h | ⟨h1, h2⟩
  · exact absurd h hx
  · obtain ⟨hne, hall, _⟩ := isStrictNum_parts h1
    exact ⟨h1, hne, hall, h2⟩

/-- Claim C2: hyphen expansion produces `>=lowerBound(A) upperBound(B)` with
    the case analysis the spec states on each side's wildcards (and B's
    prerelease); in particular `1.2 - 3.4.5` normalizes to `>=1.2.0 <=3.4.5`,
    `1.2.3 - 3.4` to `>=1.2.3 <3.5.0`, and `1.2 - 3.4` to `>=1.2.0 <3.5.0`. -/
theorem claim2_hyphen_expansion :
    (∀ (s : List Char) (h : HCaps), matchHyphen s = some h →
        XOk h.tCaps.M → XOk h.tCaps.m → hyphenReplaceL s = hyphenSpec h)
    ∧ hyphenReplace "1.2 - 3.4.5" = ">=1.2.0 <=3.4.5"
    ∧ hyphenReplace "1.2.3 - 3.4" = ">=1.2.3 <3.5.0"
    ∧ hyphenReplace "1.2 - 3.4" = ">=1.2.0 <3.5.0" := by
  refine ⟨?_, by decide, by decide, by decide⟩
  intro s h hm hM hmm
  unfold hyphenReplaceL
  rw [hm]
  unfold hyphenSpec hyphenLowerSpec hyphenUpperSpec
  by_cases h1 : isX h.tCaps.M = true
  · simp [h1]
  · obtain ⟨_, hne, hall, hle⟩ := XOk_num hM h1
    by_cases h2 : isX h.tCaps.m = true
    · simp only [h1, h2, if_true, if_false, Bool.false_eq_true, ite_false, ite_true]
      rw [itoa_i64succ hne hall hle]
    · obtain ⟨_, hne2, hall2, hle2⟩ := XOk_num hmm h2
      by_cases h3 : isX h.tCaps.p = true
      · simp only [h1, h2, h3, if_true, if_false, Bool.false_eq_true, ite_false, ite_true]
        rw [itoa_i64succ hne2 hall2 hle2]
      · by_cases h4 : h.tCaps.pr = []
        · simp [h1, h2, h3, h4]
        · simp [h1, h2, h3, h4, List.length_pos.mpr h4]

theorem claim2_witness :
    hyphenReplaceL (lit "1.2 - 3.4") =
      hyphenSpec ⟨lit "1.2", ⟨lit "1", lit "2", [], [], []⟩,
                  lit "3.4", ⟨lit "3", lit "4", [], [], []⟩⟩ :=
  claim2_hyphen_expansion.1 (lit "1.2 - 3.4") _ (by rfl)
    (Or.inr ⟨by decide, by decide⟩) (Or.inr ⟨by decide, by decide⟩)

/-- Claim C3: caret expansion follows the spec's case analysis (unconstrained
    on a major wildcard; `>=M.0.0 <(M+1).0.0` on a minor wildcard; the
    `M==0`-sensitive bounds on a patch wildcard or a fully specified version,
    keeping the prerelease in the lower bound); in particular `^1.2.3` becomes
    `>=1.2.3 <2.0.0`, `^0.2.3` becomes `>=0.2.3 <0.3.0`, and `^0.0.3` becomes
    `>=0.0.3 <0.0.4`. -/
theorem claim3_caret_expansion :
    (∀ (s : List Char) (c : XCaps), matchCaret s = some c → CapsOk c →
        replaceCaretL s = caretSpec c)
    ∧ replaceCaret "^1.2.3" = ">=1.2.3 <2.0.0"
    ∧ replaceCaret "^0.2.3" = ">=0.2.3 <0.3.0"
    ∧ replaceCaret "^0.0.3" = ">=0.0.3 <0.0.4" := by
  refine ⟨?_, by decide, by decide, by decide⟩
  intro s c hm hok
  obtain ⟨hokM, hokm, hokp⟩ := hok
  unfold replaceCaretL
  rw [hm]
  unfold caretSpec
  by_cases h1 : isX c.M = true
  · simp [h1]
  · obtain ⟨hstrictM, hneM, hallM, hleM⟩ := XOk_num hokM h1
    have hz : (numVal c.M = 0) = (c.M = ['0']) := propext (strict_zero_iff hstrictM)
    by_cases h2 : isX c.m = true
    · simp only [h1, h2, if_true, if_false, Bool.false_eq_true, ite_false, ite_true]
      rw [itoa_i64succ hneM hallM hleM]
    · obtain ⟨hstrictm, hnem, hallm, hlem⟩ := XOk_num hokm h2
      have hzm : (numVal c.m = 0) = (c.m = ['0']) := propext (strict_zero_iff hstrictm)
      by_cases h3 : isX c.p = true
      · simp only [h1, h2, h3, if_true, if_false, Bool.false_eq_true, ite_false, ite_true, hz]
        by_cases h0 : c.M = ['0']
        · simp only [h0, if_true, ite_true]
          rw [itoa_i64succ hnem hallm hlem]
        · simp only [h0, if_false, ite_false]
          rw [itoa_i64succ hneM hallM hleM]
      · obtain ⟨hstrictp, hnep, hallp, hlep⟩ := XOk_num hokp h3
        by_cases h4 : c.pr = []
        · simp only [h1, h2, h3, h4, if_true, if_false, Bool.false_eq_true, ite_false, ite_true,
            List.length_nil, gt_iff_lt, Nat.lt_irrefl, ne_eq, not_true_eq_false, hz, hzm]
          by_cases h0 : c.M = ['0']
          · by_cases h0m : c.m = ['0']
            · simp only [h0, h0m, if_true, ite_true, not_true_eq_false, ite_false]
              rw [itoa_i64succ hnep hallp hlep]
              simp only [List.append_assoc]
              rfl
            · simp only [h0, h0m, if_true, ite_true, if_false, ite_false, not_false_eq_true]
              rw [itoa_i64succ hnem hallm hlem]
              simp only [List.append_assoc]
              rfl
          · simp only [h0, if_false, ite_false]
            rw [itoa_i64succ hneM hallM hleM]
            simp only [List.append_assoc]
            rfl
        · have h4len : c.pr.length > 0 := List.length_pos.mpr h4
          simp only [h1, h2, h3, h4, h4len, if_true, if_false, Bool.false_eq_true, ite_false,
            ite_true, ne_eq, not_false_eq_true, hz, hzm]
          by_cases h0 : c.M = ['0']
          · by_cases h0m : c.m = ['0']
            · simp only [h0, h0m, if_true, ite_true, not_true_eq_false, ite_false]
              rw [itoa_i64succ hnep hallp hlep]
              simp only [List.append_assoc]
              rfl
            · simp only [h0, h0m, if_true, ite_true, if_false, ite_false, not_false_eq_true]
              rw [itoa_i64succ hnem hallm hlem]
              simp only [List.append_assoc]
              rfl
          · simp only [h0, if_false, ite_false]
            rw [itoa_i64succ hneM hallM hleM]
            simp only [List.append_assoc]
            rfl

theorem claim3_witness :
    replaceCaretL (lit "^0.2.3") = caretSpec ⟨lit "0", lit "2", lit "3", [], []⟩ :=
  claim3_caret_expansion.1 (lit "^0.2.3") _ (by rfl)
    ⟨Or.inr ⟨by decide, by decide⟩, Or.inr ⟨by decide, by decide⟩, Or.inr ⟨by decide, by decide⟩⟩

/-- Claim C4: tilde expansion follows the spec's case analysis (unconstrained
    on a major wildcard; `>=M.0.0 <(M+1).0.0` on a minor wildcard;
    `>=M.m.0 <M.(m+1).0` on a patch wildcard; `>=M.m.p[-pr] <M.(m+1).0` when
    fully specified, with or without prerelease); in particular `~1.2.3`
    becomes `>=1.2.3 <1.3.0`, `~1.2` becomes `>=1.2.0 <1.3.0`, and `~0`
    becomes `>=0.0.0 <1.0.0`. -/
theorem claim4_tilde_expansion :
    (∀ (s : List Char) (c : XCaps), matchTilde s = some c → XOk c.M → XOk c.m →
        replaceTildeL s = tildeSpec c)
    ∧ replaceTilde "~1.2.3" = ">=1.2.3 <1.3.0"
    ∧ replaceTilde "~1.2" = ">=1.2.0 <1.3.0"
    ∧ replaceTilde "~0" = ">=0.0.0 <1.0.0" := by
  refine ⟨?_, by decide, by decide, by decide⟩
  intro s c hm hokM hokm
  unfold replaceTildeL
  rw [hm]
  unfold tildeSpec
  by_cases h1 : isX c.M = true
  · simp [h1]
  · obtain ⟨_, hneM, hallM, hleM⟩ := XOk_num hokM h1
    by_cases h2 : isX c.m = true
    · simp only [h1, h2, if_true, if_false, Bool.false_eq_true, ite_false, ite_true]
      rw [itoa_i64succ hneM hallM hleM]
    · obtain ⟨_, hnem, hallm, hlem⟩ := XOk_num hokm h2
      by_cases h3 : isX c.p = true
      · simp only [h1, h2, h3, if_true, if_false, Bool.false_eq_true, ite_false, ite_true]
        rw [itoa_i64succ hnem hallm hlem]
      · by_cases h4 : c.pr = []
        · simp only [h1, h2, h3, h4, if_true, if_false, Bool.false_eq_true, ite_false, ite_true,
            List.length_nil, gt_iff_lt, Nat.lt_irrefl, ne_eq, not_true_eq_false]
          rw [itoa_i64succ hnem hallm hlem]
          simp only [List.append_assoc, List.append_nil]
        · have h4len : c.pr.length > 0 := List.length_pos.mpr h4
          simp only [h1, h2, h3, h4, h4len, if_true, if_false, Bool.false_eq_true, ite_false,
            ite_true, ne_eq, not_false_eq_true]
          rw [itoa_i64succ hnem hallm hlem]
          simp only [List.append_assoc]

theorem claim4_witness :
    replaceTildeL (lit "~1.2.3") = tildeSpec ⟨lit "1", lit "2", lit "3", [], []⟩ :=
  claim4_tilde_expansion.1 (lit "~1.2.3") _ (by rfl)
    (Or.inr ⟨by decide, by decide⟩) (Or.inr ⟨by decide, by decide⟩)

/-- Claim C5: x-range expansion with at least one wildcard position: a major
    wildcard yields `<0.0.0` under an explicit `>`/`<` and `*` otherwise; an
    `=` operator on a wildcarded form is treated as no operator; `>` becomes
    `>=` of the next unit up and `<=` becomes `<` of the next unit up; with
    no operator a minor wildcard yields `>=M.0.0 <(M+1).0.0` and a patch-only
    wildcard yields `>=M.m.0 <M.(m+1).0`; in particular `>1.2.x` becomes
    `>=1.3.0`, `>1` becomes `>=2.0.0`, and `<=1.2.x` becomes `<1.3.0`. -/
theorem claim5_xrange_expansion :
    (∀ (g : List Char) (c : XCaps) (ret0 : List Char), CapsOk c →
        (isX c.M = true →
          ((g = lit ">" ∨ g = lit "<") → xrangeCore g c ret0 = lit "<0.0.0")
          ∧ (¬(g = lit ">" ∨ g = lit "<") → xrangeCore g c ret0 = lit "*"))
        ∧ ((isX c.M = true ∨ isX c.m = true ∨ isX c.p = true) →
            xrangeCore (lit "=") c ret0 = xrangeCore [] c ret0)
        ∧ (¬ isX c.M = true → (isX c.m = true ∨ isX c.p = true) →
            xrangeCore (lit ">") c ret0 = lit ">=" ++ xrangeNextUp c
            ∧ xrangeCore (lit "<=") c ret0 = lit "<" ++ xrangeNextUp c)
        ∧ (¬ isX c.M = true → isX c.m = true →
            xrangeCore [] c ret0 =
              lit ">=" ++ c.M ++ lit ".0.0 <" ++ natStr (numVal c.M + 1) ++ lit ".0.0")
        ∧ (¬ isX c.M = true → ¬ isX c.m = true → isX c.p = true →
            xrangeCore [] c ret0 =
              lit ">=" ++ c.M ++ lit "." ++ c.m ++ lit ".0 <" ++
                c.M ++ lit "." ++ natStr (numVal c.m + 1) ++ lit ".0"))
    ∧ replaceXRange ">1.2.x" = ">=1.3.0"
    ∧ replaceXRange ">1" = ">=2.0.0"
    ∧ replaceXRange "<=1.2.x" = "<1.3.0" := by
  refine ⟨?_, by decide, by decide, by decide⟩
  intro g c ret0 hok
  obtain ⟨hokM, hokm, hokp⟩ := hok
  refine ⟨?_, ?_, ?_, ?_, ?_⟩
  · intro hM
    constructor
    · rintro (rfl | rfl) <;> simp +decide [xrangeCore, hM]
    · intro hng
      have hg1 : ¬ g = lit ">" := fun hgg => hng (Or.inl hgg)
      have hg2 : ¬ g = lit "<" := fun hgg => hng (Or.inr hgg)
      by_cases hge : g = lit "="
      · subst hge
        simp +decide [xrangeCore, hM]
      · simp +decide [xrangeCore, hM, hge, hg1, hg2]
  · intro hany
    have hxp : ((isX c.M || isX c.m) || isX c.p) = true := by
      rcases hany with h | h | h <;> simp [h]
    simp +decide [xrangeCore, hxp]
  · intro hM hany
    obtain ⟨_, hneM, hallM, hleM⟩ := XOk_num hokM hM
    have hxp : ((isX c.M || isX c.m) || isX c.p) = true := by
      rcases hany with h | h <;> simp [h]
    constructor
    · by_cases h2 : isX c.m = true
      · simp +decide [xrangeCore, hM, h2, xrangeNextUp]
        rw [itoa_i64succ hneM hallM hleM]
      · obtain ⟨_, hnem, hallm, hlem⟩ := XOk_num hokm h2
        have h3 : isX c.p = true := by
          rcases hany with h | h
          · exact absurd h h2
          · exact h
        simp +decide [xrangeCore, hM, h2, h3, xrangeNextUp]
        rw [itoa_i64succ hnem hallm hlem]
    · by_cases h2 : isX c.m = true
      · simp +decide [xrangeCore, hM, h2, xrangeNextUp]
        rw [itoa_i64succ hneM hallM hleM]
        congr 1
      · obtain ⟨_, hnem, hallm, hlem⟩ := XOk_num hokm h2
        have h3 : isX c.p = true := by
          rcases hany with h | h
          · exact absurd h h2
          · exact h
        simp +decide [xrangeCore, hM, h2, h3, xrangeNextUp]
        rw [itoa_i64succ hnem hallm hlem]
        congr 1
  · intro hM h2
    obtain ⟨_, hneM, hallM, hleM⟩ := XOk_num hokM hM
    simp +decide [xrangeCore, hM, h2]
    rw [itoa_i64succ hneM hallM hleM]
  · intro hM h2 h3
    obtain ⟨_, hnem, hallm, hlem⟩ := XOk_num hokm h2
    simp +decide [xrangeCore, hM, h2, h3]
    rw [itoa_i64succ hnem hallm hlem]

/-! ## First-result lemmas: the backtracking-priority head of each parser on
    canonically shaped input -/

theorem pBind_first {α β : Type} {p : Parser α} {f : α → Parser β} {s : List Char}
    {x : α × List Char × List Char} {t} {y : β × List Char × List Char} {u}
    (hp : p s = x :: t) (hf : f x.1 x.2.2 = y :: u) :
    ∃ l, pBind p f s = (y.1, x.2.1 ++ y.2.1, y.2.2) :: l := by
  simp only [pBind, hp, List.flatMap_cons, hf, List.map_cons, List.cons_append]
  exact ⟨_, rfl⟩

theorem pMap_first {α β : Type} {p : Parser α} (f : α → β) {s : List Char}
    {x : α × List Char × List Char} {t} (hp : p s = x :: t) :
    ∃ l, pMap p f s = (f x.1, x.2.1, x.2.2) :: l := by
  simp only [pMap, hp, List.map_cons]
  exact ⟨_, rfl⟩

theorem pAlt_first {α : Type} {p q : Parser α} {s : List Char}
    {x : α × List Char × List Char} {t} (hp : p s = x :: t) :
    ∃ l, pAlt p q s = x :: l := by
  simp only [pAlt, hp, List.cons_append]
  exact ⟨_, rfl⟩

theorem pAlt_nil {α : Type} {p q : Parser α} {s : List Char} (hp : p s = []) :
    pAlt p q s = q s := by
  simp [pAlt, hp]

theorem pOpt_first {α : Type} {p : Parser α} (d : α) {s : List Char}
    {x : α × List Char × List Char} {t} (hp : p s = x :: t) :
    ∃ l, pOpt p d s = x :: l :=
  pAlt_first hp

theorem pOpt_nil {α : Type} {p : Parser α} (d : α) {s : List Char} (hp : p s = []) :
    pOpt p d s = [(d, [], s)] := by
  simp [pOpt, pAlt, pPure, hp]

theorem pChar_cons (c : Char) (r : List Char) : pChar c (c :: r) = [(c, [c], r)] := by
  simp [pChar]

theorem takeWhile_app {f : Char → Bool} {t r : List Char} (ht : ∀ c ∈ t, f c = true)
    (hr : ∀ c, r.head? = some c → f c = false) :
    (t ++ r).takeWhile f = t ∧ (t ++ r).dropWhile f = r := by
  induction t with
  | nil =>
    simp only [List.nil_append]
    cases r with
    | nil => simp [List.takeWhile, List.dropWhile]
    | cons c cs =>
      have := hr c rfl
      simp [List.takeWhile_cons, List.dropWhile_cons, this]
  | cons c t ih =>
    have hc := ht c (List.mem_cons_self c t)
    have := ih (fun d hd => ht d (List.mem_cons_of_mem c hd))
    simp [List.takeWhile_cons, List.dropWhile_cons, hc, this.1, this.2]

theorem pStar_first {f : Char → Bool} {t r : List Char} (ht : ∀ c ∈ t, f c = true)
    (hr : ∀ c, r.head? = some c → f c = false) :
    ∃ l, pStarClass f (t ++ r) = (t, t, r) :: l := by
  obtain ⟨h1, h2⟩ := takeWhile_app ht hr
  simp only [pStarClass, h1, h2, List.range_succ, List.reverse_append, List.reverse_cons,
    List.reverse_nil, List.nil_append, List.singleton_append, List.map_cons]
  rw [List.take_length, List.drop_length]
  simp

theorem pPlus_first {f : Char → Bool} {t r : List Char} (hne : t ≠ [])
    (ht : ∀ c ∈ t, f c = true) (hr : ∀ c, r.head? = some c → f c = false) :
    ∃ l, pPlusClass f (t ++ r) = (t, t, r) :: l := by
  obtain ⟨h1, h2⟩ := takeWhile_app ht hr
  obtain ⟨n, hn⟩ : ∃ n, t.length = n + 1 := by
    cases t with
    | nil => exact absurd rfl hne
    | cons c cs => exact ⟨cs.length, rfl⟩
  simp only [pPlusClass, h1, h2, hn, List.range_succ, List.reverse_append, List.reverse_cons,
    List.reverse_nil, List.nil_append, List.singleton_append, List.map_cons]
  rw [show n + 1 = t.length from hn.symm, List.take_length, List.drop_length]
  simp

theorem firstFull_of_cons {α : Type} {l : List (α × List Char × List Char)}
    {x : α × List Char × List Char} {t} (hl : l = x :: t) (hx : x.2.2 = []) :
    firstFull l = some x.1 := by
  subst hl
  simp [firstFull, List.filter_cons, hx]

theorem digit_bounds {d : Char} (h : isDigitCh d = true) : 48 ≤ d.toNat ∧ d.toNat ≤ 57 := by
  unfold isDigitCh at h
  simp only [Bool.and_eq_true, decide_eq_true_eq] at h
  exact ⟨h.1, h.2⟩

theorem digit_ne {d : Char} (h : isDigitCh d = true) {c : Char} (hc : isDigitCh c = false) :
    d ≠ c := by
  intro he
  subst he
  rw [h] at hc
  cases hc

theorem pClass_nil_of_head {f : Char → Bool} {s : List Char}
    (h : ∀ c, s.head? = some c → f c = false) : pClass f s = [] := by
  cases s with
  | nil => rfl
  | cons y ys => simp [pClass, h y rfl]

theorem pPlusClass_nil {f : Char → Bool} {s : List Char}
    (h : ∀ c, s.head? = some c → f c = false) : pPlusClass f s = [] := by
  have ht : s.takeWhile f = [] := by
    cases s with
    | nil => rfl
    | cons y ys => simp [List.takeWhile_cons, h y rfl]
  simp [pPlusClass, ht]

theorem pStarClass_singleton {f : Char → Bool} {s : List Char}
    (h : ∀ c, s.head? = some c → f c = false) : pStarClass f s = [([], [], s)] := by
  have ht : s.takeWhile f = [] := by
    cases s with
    | nil => rfl
    | cons y ys => simp [List.takeWhile_cons, h y rfl]
  have hd : s.dropWhile f = s := by
    cases s with
    | nil => rfl
    | cons y ys => simp [List.dropWhile_cons, h y rfl]
  simp [pStarClass, ht, hd, List.range_succ]

/-- The rest shapes occurring after a canonical version: end of input or a
    space followed by more tokens. -/
def RestSep (r : List Char) : Prop := r = [] ∨ ∃ r', r = ' ' :: r'

theorem restSep_head {r : List Char} (h : RestSep r) :
    ∀ c, r.head? = some c → c = ' ' := by
  intro c hc
  rcases h with rfl | ⟨r', rfl⟩
  · cases hc
  · cases hc
    rfl

theorem restSep_not_class {r : List Char} (h : RestSep r) {f : Char → Bool}
    (hf : f ' ' = false) : ∀ c, r.head? = some c → f c = false := by
  intro c hc
  rw [restSep_head h c hc]
  exact hf

theorem restSep_head_ne {r : List Char} (h : RestSep r) {c : Char} (hne : c ≠ ' ') :
    r.head? ≠ some c := fun hc => hne ((restSep_head h c hc).symm ▸ rfl)

theorem pPrIdLoose_nil {r : List Char} (h : RestSep r) : pPrIdLoose r = [] := by
  unfold pPrIdLoose
  rw [pAlt_nil (pPlusClass_nil (restSep_not_class h (by decide)))]
  unfold pNonNumericId
  apply pBind_nil_right
  intro x hx
  rw [pStarClass_singleton (restSep_not_class h (by decide))] at hx
  simp only [List.mem_singleton] at hx
  subst hx
  exact pBind_nil_left _ (pClass_nil_of_head (restSep_not_class h (by decide)))

theorem pPrereleaseLoose_nil {r : List Char} (h : RestSep r) (fuel : Nat) :
    pPrereleaseLoose fuel r = [] := by
  unfold pPrereleaseLoose
  apply pBind_nil_right
  intro x hx
  rw [pOpt_nil _ (pMap_nil _ (pChar_nil_of_head (restSep_head_ne h (by decide))))] at hx
  simp only [List.mem_singleton] at hx
  subst hx
  exact pBind_nil_left _ (pPrIdLoose_nil h)

theorem pBuild_nil {r : List Char} (h : RestSep r) (fuel : Nat) : pBuild fuel r = [] := by
  unfold pBuild
  exact pBind_nil_left _ (pChar_nil_of_head (restSep_head_ne h (by decide)))

theorem pPrerelease_nil {r : List Char} (h : RestSep r) (fuel : Nat) :
    pPrerelease fuel r = [] := by
  unfold pPrerelease
  exact pBind_nil_left _ (pChar_nil_of_head (restSep_head_ne h (by decide)))

theorem pNumericId_first {n r : List Char} (hn : isStrictNum n = true)
    (hr : ∀ c, r.head? = some c → isDigitCh c = false) :
    ∃ l, pNumericId (n ++ r) = (n, n, r) :: l := by
  obtain ⟨_, hall, _⟩ := isStrictNum_parts hn
  rcases strict_head_cases hn with rfl | ⟨c, cs, rfl, h49, hcs⟩
  · obtain ⟨l, h⟩ := pMap_first (fun c : Char => [c]) (pChar_cons '0' r)
    exact pAlt_first h
  · have hcd : isDigitCh c = true := by
      simp only [List.all_cons, Bool.and_eq_true] at hall
      exact hall.1
    have hc0 : c ≠ '0' := by
      intro he
      subst he
      exact absurd h49 (by decide)
    have halt : pChar '0' ((c :: cs) ++ r) = [] := by
      simp only [List.cons_append]
      simp [pChar, hc0]
    rw [show pNumericId ((c :: cs) ++ r) =
        pAlt (pMap (pChar '0') (fun c => [c]))
          (pBind (pClass isNonZeroDigit) (fun c => pMap (pStarClass isDigitCh) (fun ds => c :: ds)))
          ((c :: cs) ++ r) from rfl]
    rw [pAlt_nil (pMap_nil _ halt)]
    have hnz : isNonZeroDigit c = true := by
      unfold isNonZeroDigit
      have hb := digit_bounds hcd
      have h1c : '1' ≤ c := by
        show 49 ≤ c.toNat
        exact h49
      have h9c : c ≤ '9' := by
        show c.toNat ≤ 57
        exact hb.2
      simp [h1c, h9c]
    have hclass : pClass isNonZeroDigit ((c :: cs) ++ r) = [(c, [c], cs ++ r)] := by
      simp only [List.cons_append]
      simp [pClass, hnz]
    have hcs_all : ∀ d ∈ cs, isDigitCh d = true := hcs
    obtain ⟨l2, h2⟩ := pStar_first hcs_all hr
    obtain ⟨l3, h3⟩ := pMap_first (fun ds => c :: ds) h2
    exact pBind_first (f := fun c => pMap (pStarClass isDigitCh) (fun ds => c :: ds)) hclass h3

theorem pXId_first {n r : List Char} (hn : isStrictNum n = true)
    (hr : ∀ c, r.head? = some c → isDigitCh c = false) :
    ∃ l, pXId (n ++ r) = (n, n, r) :: l := by
  obtain ⟨l, h⟩ := pNumericId_first hn hr
  exact pAlt_first h

theorem pLtGt_nil {s : List Char} (h1 : s.head? ≠ some '<') (h2 : s.head? ≠ some '>') :
    pAlt (pMap (pChar '<') (fun c => [c])) (pMap (pChar '>') (fun c => [c])) s = [] := by
  rw [pAlt_nil (pMap_nil _ (pChar_nil_of_head h1))]
  exact pMap_nil _ (pChar_nil_of_head h2)

theorem pEqOpt_nil {s : List Char} (h : s.head? ≠ some '=') :
    pOpt (pMap (pChar '=') (fun c => [c])) [] s = [([], [], s)] :=
  pOpt_nil _ (pMap_nil _ (pChar_nil_of_head h))

theorem pEqOpt_cons (r : List Char) :
    ∃ l, pOpt (pMap (pChar '=') (fun c => [c])) [] ('=' :: r) = (['='], ['='], r) :: l := by
  obtain ⟨l, h⟩ := pMap_first (fun c : Char => [c]) (pChar_cons '=' r)
  exact pOpt_first _ h

theorem pGtlt_first {op r : List Char}
    (hop : op ∈ [([] : List Char), lit "=", lit "<", lit ">", lit "<=", lit ">="])
    {d : Char} (hd : r.head? = some d) (hdd : isDigitCh d = true) :
    ∃ l, pGtlt (op ++ r) = (op, op, r) :: l := by
  have hne : ∀ c : Char, isDigitCh c = false → r.head? ≠ some c := by
    intro c hc he
    rw [hd] at he
    cases he
    rw [hdd] at hc
    cases hc
  have hlt := hne '<' (by decide)
  have hgt := hne '>' (by decide)
  have heq := hne '=' (by decide)
  simp only [List.mem_cons, List.mem_singleton, List.not_mem_nil, or_false] at hop
  rcases hop with rfl | rfl | rfl | rfl | rfl | rfl
  · have hA := pOpt_nil ([] : List Char) (pLtGt_nil hlt hgt)
    have hB := pEqOpt_nil heq
    obtain ⟨l3, h3⟩ := pMap_first (fun b : List Char => ([] : List Char) ++ b) hB
    exact pBind_first
      (f := fun a => pMap (pOpt (pMap (pChar '=') (fun c => [c])) []) (fun b => a ++ b)) hA h3
  · show ∃ l, pGtlt ('=' :: r) = _ :: l
    have hA := pOpt_nil ([] : List Char)
      (pLtGt_nil (s := '=' :: r) (by simp) (by simp))
    obtain ⟨l2, h2⟩ := pEqOpt_cons r
    obtain ⟨l3, h3⟩ := pMap_first (fun b : List Char => ([] : List Char) ++ b) h2
    exact pBind_first
      (f := fun a => pMap (pOpt (pMap (pChar '=') (fun c => [c])) []) (fun b => a ++ b)) hA h3
  · show ∃ l, pGtlt ('<' :: r) = _ :: l
    obtain ⟨lc, hc⟩ := pMap_first (fun c : Char => [c]) (pChar_cons '<' r)
    obtain ⟨la, ha⟩ := pAlt_first (q := pMap (pChar '>') (fun c => [c])) hc
    obtain ⟨lA, hA⟩ := pOpt_first ([] : List Char) ha
    have hB := pEqOpt_nil heq
    obtain ⟨l3, h3⟩ := pMap_first (fun b : List Char => ['<'] ++ b) hB
    exact pBind_first
      (f := fun a => pMap (pOpt (pMap (pChar '=') (fun c => [c])) []) (fun b => a ++ b)) hA h3
  · show ∃ l, pGtlt ('>' :: r) = _ :: l
    obtain ⟨lc, hc⟩ := pMap_first (fun c : Char => [c]) (pChar_cons '>' r)
    have halt : pMap (pChar '<') (fun c : Char => [c]) ('>' :: r) = [] :=
      pMap_nil _ (pChar_nil_of_head (by simp))
    have ha : pAlt (pMap (pChar '<') (fun c => [c])) (pMap (pChar '>') (fun c => [c]))
        ('>' :: r) = (['>'], ['>'], r) :: lc := by
      rw [pAlt_nil halt]
      exact hc
    obtain ⟨lA, hA⟩ := pOpt_first ([] : List Char) ha
    have hB := pEqOpt_nil heq
    obtain ⟨l3, h3⟩ := pMap_first (fun b : List Char => ['>'] ++ b) hB
    exact pBind_first
      (f := fun a => pMap (pOpt (pMap (pChar '=') (fun c => [c])) []) (fun b => a ++ b)) hA h3
  · show ∃ l, pGtlt ('<' :: '=' :: r) = _ :: l
    obtain ⟨lc, hc⟩ := pMap_first (fun c : Char => [c]) (pChar_cons '<' ('=' :: r))
    obtain ⟨la, ha⟩ := pAlt_first (q := pMap (pChar '>') (fun c => [c])) hc
    obtain ⟨lA, hA⟩ := pOpt_first ([] : List Char) ha
    obtain ⟨l2, h2⟩ := pEqOpt_cons r
    obtain ⟨l3, h3⟩ := pMap_first (fun b : List Char => ['<'] ++ b) h2
    exact pBind_first
      (f := fun a => pMap (pOpt (pMap (pChar '=') (fun c => [c])) []) (fun b => a ++ b)) hA h3
  · show ∃ l, pGtlt ('>' :: '=' :: r) = _ :: l
    obtain ⟨lc, hc⟩ := pMap_first (fun c : Char => [c]) (pChar_cons '>' ('=' :: r))
    have halt : pMap (pChar '<') (fun c : Char => [c]) ('>' :: '=' :: r) = [] :=
      pMap_nil _ (pChar_nil_of_head (by simp))
    have ha : pAlt (pMap (pChar '<') (fun c => [c])) (pMap (pChar '>') (fun c => [c]))
        ('>' :: '=' :: r) = (['>'], ['>'], '=' :: r) :: lc := by
      rw [pAlt_nil halt]
      exact hc
    obtain ⟨lA, hA⟩ := pOpt_first ([] : List Char) ha
    obtain ⟨l2, h2⟩ := pEqOpt_cons r
    obtain ⟨l3, h3⟩ := pMap_first (fun b : List Char => ['>'] ++ b) h2
    exact pBind_first
      (f := fun a => pMap (pOpt (pMap (pChar '=') (fun c => [c])) []) (fun b => a ++ b)) hA h3

theorem head_app {t r : List Char} (h : t ≠ []) : (t ++ r).head? = t.head? := by
  cases t with
  | nil => exact absurd rfl h
  | cons c cs => rfl

theorem head_all {t : List Char} {f : Char → Bool} (hall : ∀ c ∈ t, f c = true) :
    ∀ c, t.head? = some c → f c = true := by
  intro c hc
  cases t with
  | nil => cases hc
  | cons a ys =>
    simp only [List.head?_cons, Option.some.injEq] at hc
    subst hc
    exact hall a (List.mem_cons_self a ys)

/-- A character of the class `[v=\s]` is never a digit. -/
theorem vEqSpace_not_digit {c : Char} (h : isVEqSpace c = true) : isDigitCh c = false := by
  unfold isVEqSpace isSpaceRe at h
  simp only [Bool.or_eq_true, decide_eq_true_eq] at h
  rcases h with (rfl | rfl) | (((rfl | rfl) | rfl) | rfl) | rfl <;> decide

/-- A whitespace character is never a digit. -/
theorem spaceRe_not_digit {c : Char} (h : isSpaceRe c = true) : isDigitCh c = false := by
  unfold isSpaceRe at h
  simp only [Bool.or_eq_true, decide_eq_true_eq] at h
  rcases h with (((rfl | rfl) | rfl) | rfl) | rfl <;> decide

theorem not_vEqSpace_of_digit {c : Char} (hd : isDigitCh c = true) : isVEqSpace c = false := by
  cases hv : isVEqSpace c
  · rfl
  · rw [vEqSpace_not_digit hv] at hd
    cases hd

theorem not_spaceRe_of_digit {c : Char} (hd : isDigitCh c = true) : isSpaceRe c = false := by
  cases hv : isSpaceRe c
  · rfl
  · rw [spaceRe_not_digit hv] at hd
    cases hd

/-- The backtracking-priority result of `LOOSEPLAIN` on a fully specified
    dotted numeral triple followed by a token separator. -/
theorem pLoosePlainU_first {n1 n2 n3 r : List Char} (fuel : Nat)
    (h1 : n1 ≠ []) (h1d : ∀ c ∈ n1, isDigitCh c = true)
    (h2 : n2 ≠ []) (h2d : ∀ c ∈ n2, isDigitCh c = true)
    (h3 : n3 ≠ []) (h3d : ∀ c ∈ n3, isDigitCh c = true)
    (hr : RestSep r) :
    ∃ l, pLoosePlainU fuel (n1 ++ '.' :: (n2 ++ '.' :: (n3 ++ r))) =
      ((), n1 ++ '.' :: (n2 ++ '.' :: n3), r) :: l := by
  have hdig_head : ∀ c, (n1 ++ '.' :: (n2 ++ '.' :: (n3 ++ r))).head? = some c →
      isDigitCh c = true := by
    intro c hc
    rw [head_app h1] at hc
    exact head_all h1d c hc
  have hA : pStarClass isVEqSpace (n1 ++ '.' :: (n2 ++ '.' :: (n3 ++ r))) =
      [([], [], n1 ++ '.' :: (n2 ++ '.' :: (n3 ++ r)))] := by
    apply pStarClass_singleton
    intro c hc
    exact not_vEqSpace_of_digit (hdig_head c hc)
  have hdot1 : ∀ c, ('.' :: (n2 ++ '.' :: (n3 ++ r))).head? = some c → isDigitCh c = false := by
    intro c hc
    cases hc
    decide
  have hdot2 : ∀ c, ('.' :: (n3 ++ r)).head? = some c → isDigitCh c = false := by
    intro c hc
    cases hc
    decide
  have hrd : ∀ c, r.head? = some c → isDigitCh c = false :=
    restSep_not_class hr (by decide)
  obtain ⟨lB, hB⟩ := pPlus_first (t := n1) h1 h1d hdot1
  obtain ⟨lD, hD⟩ := pPlus_first (t := n2) h2 h2d hdot2
  obtain ⟨lF, hF⟩ := pPlus_first (t := n3) h3 h3d hrd
  have hG : pOpt (pPrereleaseLoose fuel) [] r = [([], [], r)] :=
    pOpt_nil _ (pPrereleaseLoose_nil hr fuel)
  have hH : pOpt (pBuild fuel) [] r = [([], [], r)] :=
    pOpt_nil _ (pBuild_nil hr fuel)
  obtain ⟨lI, hI⟩ := pMap_first (fun _ : List Char => ()) hH
  obtain ⟨lJ, hJ⟩ := pBind_first (f := fun _ => pMap (pOpt (pBuild fuel) []) (fun _ => ())) hG hI
  obtain ⟨lK, hK⟩ := pBind_first
    (f := fun _ => pBind (pOpt (pPrereleaseLoose fuel) [])
      (fun _ => pMap (pOpt (pBuild fuel) []) (fun _ => ()))) hF hJ
  obtain ⟨lL, hL⟩ := pBind_first
    (f := fun _ => pBind (pPlusClass isDigitCh)
      (fun _ => pBind (pOpt (pPrereleaseLoose fuel) [])
        (fun _ => pMap (pOpt (pBuild fuel) []) (fun _ => ())))) (pChar_cons '.' (n3 ++ r)) hK
  obtain ⟨lM, hM⟩ := pBind_first
    (f := fun _ => pBind (pChar '.')
      (fun _ => pBind (pPlusClass isDigitCh)
        (fun _ => pBind (pOpt (pPrereleaseLoose fuel) [])
          (fun _ => pMap (pOpt (pBuild fuel) []) (fun _ => ()))))) hD hL
  obtain ⟨lN, hN⟩ := pBind_first
    (f := fun _ => pBind (pPlusClass isDigitCh)
      (fun _ => pBind (pChar '.')
        (fun _ => pBind (pPlusClass isDigitCh)
          (fun _ => pBind (pOpt (pPrereleaseLoose fuel) [])
            (fun _ => pMap (pOpt (pBuild fuel) []) (fun _ => ())))))) (pChar_cons '.' _) hM
  obtain ⟨lO, hO⟩ := pBind_first
    (f := fun _ => pBind (pChar '.')
      (fun _ => pBind (pPlusClass isDigitCh)
        (fun _ => pBind (pChar '.')
          (fun _ => pBind (pPlusClass isDigitCh)
            (fun _ => pBind (pOpt (pPrereleaseLoose fuel) [])
              (fun _ => pMap (pOpt (pBuild fuel) []) (fun _ => ())))))))
    hB hN
  obtain ⟨lP, hP⟩ := pBind_first
    (f := fun _ => pBind (pPlusClass isDigitCh)
      (fun _ => pBind (pChar '.')
        (fun _ => pBind (pPlusClass isDigitCh)
          (fun _ => pBind (pChar '.')
            (fun _ => pBind (pPlusClass isDigitCh)
              (fun _ => pBind (pOpt (pPrereleaseLoose fuel) [])
                (fun _ => pMap (pOpt (pBuild fuel) []) (fun _ => ()))))))))
    hA hO
  refine ⟨lP, ?_⟩
  rw [show pLoosePlainU fuel (n1 ++ '.' :: (n2 ++ '.' :: (n3 ++ r))) =
    pBind (pStarClass isVEqSpace)
      (fun _ => pBind (pPlusClass isDigitCh)
        (fun _ => pBind (pChar '.')
          (fun _ => pBind (pPlusClass isDigitCh)
            (fun _ => pBind (pChar '.')
              (fun _ => pBind (pPlusClass isDigitCh)
                (fun _ => pBind (pOpt (pPrereleaseLoose fuel) [])
                  (fun _ => pMap (pOpt (pBuild fuel) []) (fun _ => ()))))))))
      (n1 ++ '.' :: (n2 ++ '.' :: (n3 ++ r))) from rfl]
  rw [hP]
  simp

theorem pWithConsumed_first {α : Type} {p : Parser α} {s : List Char}
    {x : α × List Char × List Char} {t} (hp : p s = x :: t) :
    ∃ l, pWithConsumed p s = ((x.1, x.2.1), x.2.1, x.2.2) :: l := by
  simp only [pWithConsumed, hp, List.map_cons]
  exact ⟨_, rfl⟩

theorem strict_parts' {n : List Char} (h : isStrictNum n = true) :
    n ≠ [] ∧ ∀ c ∈ n, isDigitCh c = true := by
  obtain ⟨hne, hall, _⟩ := isStrictNum_parts h
  exact ⟨hne, fun c hc => by
    rw [List.all_eq_true] at hall
    exact hall c hc⟩

/-- The backtracking-priority match of `COMPARATORTRIM` at the start of a
    canonical token, optionally preceded by the single separating space: the
    match consumes through the token and the replacement `$1$2$3` reproduces
    it exactly. -/
theorem pCompTrim_first {sp op n1 n2 n3 r : List Char} (fuel : Nat)
    (hsp : sp = [] ∨ sp = [' '])
    (hop : op ∈ [([] : List Char), lit "=", lit "<", lit ">", lit "<=", lit ">="])
    (h1 : isStrictNum n1 = true) (h2 : isStrictNum n2 = true) (h3 : isStrictNum n3 = true)
    (hr : RestSep r) :
    ∃ l, pCompTrim fuel (sp ++ (op ++ (n1 ++ '.' :: (n2 ++ '.' :: (n3 ++ r))))) =
      (sp ++ (op ++ (n1 ++ '.' :: (n2 ++ '.' :: n3))),
       sp ++ (op ++ (n1 ++ '.' :: (n2 ++ '.' :: n3))), r) :: l := by
  obtain ⟨h1ne, h1d⟩ := strict_parts' h1
  obtain ⟨h2ne, h2d⟩ := strict_parts' h2
  obtain ⟨h3ne, h3d⟩ := strict_parts' h3
  have hopsp : ∀ c ∈ op, isSpaceRe c = false := by
    simp only [List.mem_cons, List.mem_singleton, List.not_mem_nil, or_false] at hop
    rcases hop with rfl | rfl | rfl | rfl | rfl | rfl <;> decide
  have hRhead : ∀ c, (n1 ++ '.' :: (n2 ++ '.' :: (n3 ++ r))).head? = some c →
      isDigitCh c = true := by
    intro c hc
    rw [head_app h1ne] at hc
    exact head_all h1d c hc
  have hTokHead : ∀ c, (op ++ (n1 ++ '.' :: (n2 ++ '.' :: (n3 ++ r)))).head? = some c →
      isSpaceRe c = false := by
    intro c hc
    cases hcop : op with
    | nil =>
      subst hcop
      rw [List.nil_append] at hc
      exact not_spaceRe_of_digit (hRhead c hc)
    | cons o os =>
      subst hcop
      rw [head_app (by simp)] at hc
      simp only [List.head?_cons, Option.some.injEq] at hc
      subst hc
      exact hopsp o (List.mem_cons_self o os)
  have hA : ∃ lA, pStarClass isSpaceRe
      (sp ++ (op ++ (n1 ++ '.' :: (n2 ++ '.' :: (n3 ++ r))))) =
      (sp, sp, op ++ (n1 ++ '.' :: (n2 ++ '.' :: (n3 ++ r)))) :: lA := by
    apply pStar_first
    · rcases hsp with rfl | rfl
      · intro c hc
        cases hc
      · intro c hc
        simp only [List.mem_singleton] at hc
        subst hc
        decide
    · exact hTokHead
  obtain ⟨lA, hA⟩ := hA
  obtain ⟨d, hd, hdd⟩ : ∃ d, (n1 ++ '.' :: (n2 ++ '.' :: (n3 ++ r))).head? = some d ∧
      isDigitCh d = true := by
    cases hn1 : n1 with
    | nil => exact absurd hn1 h1ne
    | cons a as =>
      refine ⟨a, ?_, ?_⟩
      · rw [head_app (by simp [hn1])]
        subst hn1
        rfl
      · subst hn1
        exact h1d a (List.mem_cons_self a as)
  obtain ⟨lB, hB⟩ := pGtlt_first hop hd hdd
  have hC : pStarClass isSpaceRe (n1 ++ '.' :: (n2 ++ '.' :: (n3 ++ r))) =
      [([], [], n1 ++ '.' :: (n2 ++ '.' :: (n3 ++ r)))] := by
    apply pStarClass_singleton
    intro c hc
    exact not_spaceRe_of_digit (hRhead c hc)
  obtain ⟨lD, hD⟩ := pLoosePlainU_first fuel h1ne h1d h2ne h2d h3ne h3d hr
  obtain ⟨lE, hE⟩ := pAlt_first (q := pMap (pXRangePlain fuel) (fun _ => ())) hD
  obtain ⟨lF, hF⟩ := pWithConsumed_first hE
  obtain ⟨lG, hG⟩ := pMap_first
    (fun g3 : Unit × List Char => sp ++ op ++ g3.2) hF
  obtain ⟨lH, hH⟩ := pBind_first
    (f := fun _ => pMap
      (pWithConsumed (pAlt (pLoosePlainU fuel) (pMap (pXRangePlain fuel) (fun _ => ()))))
      (fun g3 => sp ++ op ++ g3.2)) hC hG
  obtain ⟨lI, hI⟩ := pBind_first
    (f := fun g2 => pBind (pStarClass isSpaceRe)
      (fun _ => pMap
        (pWithConsumed (pAlt (pLoosePlainU fuel) (pMap (pXRangePlain fuel) (fun _ => ()))))
        (fun g3 => sp ++ g2 ++ g3.2))) hB hH
  obtain ⟨lJ, hJ⟩ := pBind_first
    (f := fun g1 => pBind pGtlt
      (fun g2 => pBind (pStarClass isSpaceRe)
        (fun _ => pMap
          (pWithConsumed (pAlt (pLoosePlainU fuel) (pMap (pXRangePlain fuel) (fun _ => ()))))
          (fun g3 => g1 ++ g2 ++ g3.2)))) hA hI
  refine ⟨lJ, ?_⟩
  rw [show (pCompTrim fuel (sp ++ (op ++ (n1 ++ '.' :: (n2 ++ '.' :: (n3 ++ r)))))) =
    pBind (pStarClass isSpaceRe) (fun g1 =>
      pBind pGtlt (fun g2 =>
        pBind (pStarClass isSpaceRe) (fun _ =>
          pMap (pWithConsumed (pAlt (pLoosePlainU fuel) (pMap (pXRangePlain fuel) (fun _ => ()))))
            (fun g3 => g1 ++ g2 ++ g3.2))))
      (sp ++ (op ++ (n1 ++ '.' :: (n2 ++ '.' :: (n3 ++ r))))) from rfl, hJ]
  simp only [List.append_assoc, List.nil_append]

theorem canonCh_cases {c : Char} (h : CanonCh c = true) :
    isDigitCh c = true ∨ c = '.' ∨ c = '<' ∨ c = '>' ∨ c = '=' := by
  unfold CanonCh at h
  simp only [Bool.or_eq_true, decide_eq_true_eq] at h
  tauto

theorem canonCh_ne {c x : Char} (h : CanonCh c = true) (hx : CanonCh x = false) : c ≠ x := by
  intro he
  subst he
  rw [h] at hx
  cases hx

theorem canonCh_not_spaceRe {c : Char} (h : CanonCh c = true) : isSpaceRe c = false := by
  rcases canonCh_cases h with hd | rfl | rfl | rfl | rfl
  · exact not_spaceRe_of_digit hd
  all_goals decide

theorem canonCh_not_spaceTrim {c : Char} (h : CanonCh c = true) : isSpaceTrim c = false := by
  unfold isSpaceTrim
  rw [canonCh_not_spaceRe h]
  simp only [Bool.false_or, decide_eq_false_iff_not]
  exact canonCh_ne h (by decide)

theorem opCh {op : List Char}
    (hop : op ∈ [([] : List Char), lit "=", lit "<", lit ">", lit "<=", lit ">="]) :
    ∀ c ∈ op, CanonCh c = true := by
  simp only [List.mem_cons, List.mem_singleton, List.not_mem_nil, or_false] at hop
  rcases hop with rfl | rfl | rfl | rfl | rfl | rfl <;> decide

theorem canonTok_ne_nil {t : List Char} (h : CanonTok t) : t ≠ [] := by
  obtain ⟨op, n1, n2, n3, _, _, _, _, rfl⟩ := h
  simp [List.append_eq_nil]

/-- Every character of a canonical token is an operator character, a dot, or
    a digit. -/
theorem canonTok_chars {t : List Char} (h : CanonTok t) : ∀ c ∈ t, CanonCh c = true := by
  obtain ⟨op, n1, n2, n3, hop, h1, h2, h3, rfl⟩ := h
  intro c hc
  rcases List.mem_append.1 hc with hc | hc
  · rcases List.mem_append.1 hc with hc | hc
    · rcases List.mem_append.1 hc with hc | hc
      · exact opCh hop c hc
      · simp [CanonCh, (strict_parts' h1).2 c hc]
    · rcases List.mem_cons.1 hc with rfl | hc
      · decide
      · simp [CanonCh, (strict_parts' h2).2 c hc]
  · rcases List.mem_cons.1 hc with rfl | hc
    · decide
    · simp [CanonCh, (strict_parts' h3).2 c hc]

theorem head?_mem {l : List Char} {a : Char} (h : l.head? = some a) : a ∈ l := by
  cases l with
  | nil => cases h
  | cons c cs =>
    simp only [List.head?_cons, Option.some.injEq] at h
    subst h
    exact List.mem_cons_self c cs

theorem dropWhile_head_id {p : Char → Bool} {l : List Char}
    (h : ∀ c, l.head? = some c → p c = false) : l.dropWhile p = l := by
  cases l with
  | nil => rfl
  | cons c cs => simp [List.dropWhile_cons, h c rfl]

/-- `strings.TrimSpace` changes nothing when both ends are non-space. -/
theorem trimSpaceL_id {s : List Char}
    (h1 : ∀ c, s.head? = some c → isSpaceTrim c = false)
    (h2 : ∀ c, s.getLast? = some c → isSpaceTrim c = false) :
    trimSpaceL s = s := by
  unfold trimSpaceL
  rw [dropWhile_head_id h1]
  rw [dropWhile_head_id (fun c hc => h2 c (by rwa [List.head?_reverse] at hc))]
  exact List.reverse_reverse s

theorem joinTokens_ne_nil {toks : List (List Char)} (hne : toks ≠ [])
    (h : ∀ t ∈ toks, t ≠ []) : joinTokens toks ≠ [] := by
  cases toks with
  | nil => exact absurd rfl hne
  | cons t ts =>
    cases ts with
    | nil => exact h t (List.mem_cons_self t [])
    | cons t2 ts' => simp [joinTokens]

theorem joinTokens_head {t : List Char} {ts : List (List Char)} (h : t ≠ []) :
    (joinTokens (t :: ts)).head? = t.head? := by
  cases ts with
  | nil => rfl
  | cons t2 ts' =>
    show (t ++ ' ' :: joinTokens (t2 :: ts')).head? = t.head?
    exact head_app h

theorem joinTokens_getLast : ∀ {toks : List (List Char)}, toks ≠ [] →
    (∀ t ∈ toks, t ≠ []) →
    ∀ c, (joinTokens toks).getLast? = some c → ∃ t ∈ toks, c ∈ t := by
  intro toks
  induction toks with
  | nil => intro h; exact absurd rfl h
  | cons t ts ih =>
    intro _ hall c hc
    cases ts with
    | nil =>
      exact ⟨t, List.mem_cons_self t [], List.mem_of_getLast?_eq_some hc⟩
    | cons t2 ts' =>
      have htail : ∀ u ∈ t2 :: ts', u ≠ [] :=
        fun u hu => hall u (List.mem_cons_of_mem t hu)
      have hJ' : joinTokens (t2 :: ts') ≠ [] := joinTokens_ne_nil (by simp) htail
      rw [show joinTokens (t :: t2 :: ts') = t ++ ' ' :: joinTokens (t2 :: ts') from rfl,
          List.getLast?_append_of_ne_nil t (by simp)] at hc
      cases hJ : joinTokens (t2 :: ts') with
      | nil => exact absurd hJ hJ'
      | cons d ds =>
        rw [hJ, List.getLast?_cons_cons] at hc
        obtain ⟨u, hu, hcu⟩ := ih (by simp) htail c (by rw [hJ]; exact hc)
        exact ⟨u, List.mem_cons_of_mem t hu, hcu⟩

theorem joinTokens_mem : ∀ {toks : List (List Char)},
    ∀ c ∈ joinTokens toks, c = ' ' ∨ ∃ t ∈ toks, c ∈ t := by
  intro toks
  induction toks with
  | nil => intro c hc; cases hc
  | cons t ts ih =>
    intro c hc
    cases ts with
    | nil => exact Or.inr ⟨t, List.mem_cons_self t [], hc⟩
    | cons t2 ts' =>
      rw [show joinTokens (t :: t2 :: ts') = t ++ ' ' :: joinTokens (t2 :: ts') from rfl] at hc
      simp only [List.mem_append, List.mem_cons] at hc
      rcases hc with hc | rfl | hc
      · exact Or.inr ⟨t, List.mem_cons_self t (t2 :: ts'), hc⟩
      · exact Or.inl rfl
      · rcases ih c hc with rfl | ⟨u, hu, hcu⟩
        · exact Or.inl rfl
        · exact Or.inr ⟨u, List.mem_cons_of_mem t hu, hcu⟩

theorem splitWsF_append : ∀ (t : List Char), (∀ c ∈ t, isSpaceRe c = false) →
    ∀ (X h : List Char) (hs : List (List Char)),
    splitWsF false X = h :: hs → splitWsF false (t ++ X) = (t ++ h) :: hs := by
  intro t
  induction t with
  | nil =>
    intro _ X h hs hX
    simpa using hX
  | cons c cs ih =>
    intro ht X h hs hX
    have hc : isSpaceRe c = false := ht c (List.mem_cons_self c cs)
    show splitWsF false (c :: (cs ++ X)) = ((c :: cs) ++ h) :: hs
    simp only [splitWsF, hc, Bool.false_eq_true, if_false]
    rw [ih (fun d hd => ht d (List.mem_cons_of_mem c hd)) X h hs hX]
    rfl

theorem splitWsF_single (t : List Char) (ht : ∀ c ∈ t, isSpaceRe c = false) :
    splitWsF false t = [t] := by
  have h := splitWsF_append t ht [] [] [] rfl
  rwa [List.append_nil] at h

theorem splitWsF_true_eq {s : List Char}
    (h : ∀ c, s.head? = some c → isSpaceRe c = false) :
    splitWsF true s = splitWsF false s := by
  cases s with
  | nil => rfl
  | cons c cs => simp only [splitWsF, h c rfl, Bool.false_eq_true, if_false]

/-- `\s+`-splitting a space-joined list of space-free, nonempty tokens
    recovers the tokens. -/
theorem splitWs_join : ∀ (toks : List (List Char)), toks ≠ [] →
    (∀ t ∈ toks, t ≠ [] ∧ ∀ c ∈ t, isSpaceRe c = false) →
    splitWs (joinTokens toks) = toks := by
  intro toks
  induction toks with
  | nil => intro h; exact absurd rfl h
  | cons t ts ih =>
    intro _ hall
    cases ts with
    | nil =>
      show splitWsF false t = [t]
      exact splitWsF_single t (hall t (List.mem_cons_self t [])).2
    | cons t2 ts' =>
      have htail : ∀ u ∈ t2 :: ts', u ≠ [] ∧ ∀ c ∈ u, isSpaceRe c = false :=
        fun u hu => hall u (List.mem_cons_of_mem t hu)
      have hhead : ∀ c, (joinTokens (t2 :: ts')).head? = some c → isSpaceRe c = false := by
        intro c hc
        rw [joinTokens_head (htail t2 (List.mem_cons_self t2 ts')).1] at hc
        exact (htail t2 (List.mem_cons_self t2 ts')).2 c (head?_mem hc)
      have hX : splitWsF false (' ' :: joinTokens (t2 :: ts')) =
          [] :: splitWsF false (joinTokens (t2 :: ts')) := by
        simp only [splitWsF, show isSpaceRe ' ' = true from rfl, if_true,
          Bool.false_eq_true, if_false]
        rw [splitWsF_true_eq hhead]
      show splitWsF false (t ++ ' ' :: joinTokens (t2 :: ts')) = t :: t2 :: ts'
      rw [splitWsF_append t (hall t (List.mem_cons_self t (t2 :: ts'))).2 _ _ _ hX,
          List.append_nil,
          show splitWsF false (joinTokens (t2 :: ts')) = t2 :: ts' from ih (by simp) htail]

theorem splitOnChar_append : ∀ (t : List Char), (∀ c ∈ t, c ≠ ' ') →
    ∀ (X h : List Char) (hs : List (List Char)),
    splitOnChar ' ' X = h :: hs → splitOnChar ' ' (t ++ X) = (t ++ h) :: hs := by
  intro t
  induction t with
  | nil =>
    intro _ X h hs hX
    simpa using hX
  | cons c cs ih =>
    intro ht X h hs hX
    have hc : c ≠ ' ' := ht c (List.mem_cons_self c cs)
    show splitOnChar ' ' (c :: (cs ++ X)) = ((c :: cs) ++ h) :: hs
    simp only [splitOnChar, if_neg hc]
    rw [ih (fun d hd => ht d (List.mem_cons_of_mem c hd)) X h hs hX]
    rfl

theorem splitOnChar_single (t : List Char) (ht : ∀ c ∈ t, c ≠ ' ') :
    splitOnChar ' ' t = [t] := by
  have h := splitOnChar_append t ht [] [] [] rfl
  rwa [List.append_nil] at h

/-- `strings.Split(_, " ")` on a space-joined list of space-free tokens
    recovers the tokens. -/
theorem splitOnChar_join : ∀ (toks : List (List Char)), toks ≠ [] →
    (∀ t ∈ toks, ∀ c ∈ t, c ≠ ' ') →
    splitOnChar ' ' (joinTokens toks) = toks := by
  intro toks
  induction toks with
  | nil => intro h; exact absurd rfl h
  | cons t ts ih =>
    intro _ hall
    cases ts with
    | nil => exact splitOnChar_single t (hall t (List.mem_cons_self t []))
    | cons t2 ts' =>
      have hX : splitOnChar ' ' (' ' :: joinTokens (t2 :: ts')) =
          [] :: splitOnChar ' ' (joinTokens (t2 :: ts')) := by
        simp [splitOnChar]
      show splitOnChar ' ' (t ++ ' ' :: joinTokens (t2 :: ts')) = t :: t2 :: ts'
      rw [splitOnChar_append t (hall t (List.mem_cons_self t (t2 :: ts'))) _ _ _ hX,
          List.append_nil,
          show splitOnChar ' ' (joinTokens (t2 :: ts')) = t2 :: ts' from
            ih (by simp) (fun u hu => hall u (List.mem_cons_of_mem t hu))]

theorem intercalate_join : ∀ toks : List (List Char),
    List.intercalate (lit " ") toks = joinTokens toks := by
  intro toks
  induction toks with
  | nil => rfl
  | cons t ts ih =>
    cases ts with
    | nil =>
      rw [show joinTokens [t] = t from rfl]
      simp [List.intercalate]
    | cons t2 ts' =>
      show List.intercalate (lit " ") (t :: t2 :: ts') = t ++ ' ' :: joinTokens (t2 :: ts')
      rw [← ih]
      rw [show lit " " = [' '] from rfl]
      simp [List.intercalate, List.intersperse]

theorem map_id_of_mem {α : Type} {f : α → α} : ∀ {l : List α},
    (∀ x ∈ l, f x = x) → l.map f = l := by
  intro l
  induction l with
  | nil => intro _; rfl
  | cons a as ih =>
    intro h
    simp only [List.map_cons, h a (List.mem_cons_self a as),
      ih (fun x hx => h x (List.mem_cons_of_mem a hx))]

/-- The backtracking-priority match of `XRANGEPLAIN` on a fully specified
    strict numeral triple followed by a token separator: all-numeric captures,
    no prerelease, no build. -/
theorem pXRangePlain_first {n1 n2 n3 r : List Char} (fuel : Nat)
    (h1 : isStrictNum n1 = true) (h2 : isStrictNum n2 = true) (h3 : isStrictNum n3 = true)
    (hr : RestSep r) :
    ∃ cs l, pXRangePlain fuel (n1 ++ '.' :: (n2 ++ '.' :: (n3 ++ r))) =
      ((⟨n1, n2, n3, [], []⟩ : XCaps), cs, r) :: l := by
  obtain ⟨h1ne, h1d⟩ := strict_parts' h1
  have hdot : ∀ (X : List Char) c, (('.' : Char) :: X).head? = some c → isDigitCh c = false := by
    intro X c hc
    simp only [List.head?_cons, Option.some.injEq] at hc
    subst hc
    decide
  have hrd : ∀ c, r.head? = some c → isDigitCh c = false :=
    restSep_not_class hr (by decide)
  have hpr : pOpt (pPrerelease fuel) [] r = [(([] : List Char), [], r)] :=
    pOpt_nil [] (pPrerelease_nil hr fuel)
  have hb : pOpt (pBuild fuel) [] r = [(([] : List Char), [], r)] :=
    pOpt_nil [] (pBuild_nil hr fuel)
  obtain ⟨lA, hA⟩ := pMap_first (fun b : List Char => (⟨n1, n2, n3, [], b⟩ : XCaps)) hb
  obtain ⟨lB, hB⟩ := pBind_first
    (f := fun pr : List Char => pMap (pOpt (pBuild fuel) [])
      (fun b => (⟨n1, n2, n3, pr, b⟩ : XCaps))) hpr hA
  obtain ⟨lC0, hC0⟩ := pXId_first h3 hrd
  obtain ⟨lC, hC⟩ := pBind_first
    (f := fun p : List Char => pBind (pOpt (pPrerelease fuel) [])
      (fun pr => pMap (pOpt (pBuild fuel) [])
        (fun b => (⟨n1, n2, p, pr, b⟩ : XCaps)))) hC0 hB
  obtain ⟨lD, hD⟩ := pBind_first
    (f := fun _ : Char => pBind pXId
      (fun p => pBind (pOpt (pPrerelease fuel) [])
        (fun pr => pMap (pOpt (pBuild fuel) [])
          (fun b => (⟨n1, n2, p, pr, b⟩ : XCaps)))))
    (pChar_cons '.' (n3 ++ r)) hC
  obtain ⟨lE, hE⟩ := pOpt_first (⟨n1, n2, [], [], []⟩ : XCaps) hD
  obtain ⟨lF0, hF0⟩ := pXId_first h2 (hdot (n3 ++ r))
  obtain ⟨lF, hF⟩ := pBind_first
    (f := fun m : List Char =>
      pOpt (pXRangeTail2 fuel n1 m) (⟨n1, m, [], [], []⟩ : XCaps)) hF0 hE
  obtain ⟨lG, hG⟩ := pBind_first
    (f := fun _ : Char => pBind pXId
      (fun m => pOpt (pXRangeTail2 fuel n1 m) (⟨n1, m, [], [], []⟩ : XCaps)))
    (pChar_cons '.' (n2 ++ '.' :: (n3 ++ r))) hF
  obtain ⟨lH, hH⟩ := pOpt_first (⟨n1, [], [], [], []⟩ : XCaps) hG
  obtain ⟨lI0, hI0⟩ := pXId_first h1 (hdot (n2 ++ '.' :: (n3 ++ r)))
  obtain ⟨lI, hI⟩ := pBind_first
    (f := fun M : List Char =>
      pOpt (pXRangeTail1 fuel M) (⟨M, [], [], [], []⟩ : XCaps)) hI0 hH
  have hstar : pStarClass isVEqSpace (n1 ++ '.' :: (n2 ++ '.' :: (n3 ++ r))) =
      [([], [], n1 ++ '.' :: (n2 ++ '.' :: (n3 ++ r)))] := by
    apply pStarClass_singleton
    intro c hc
    rw [head_app h1ne] at hc
    exact not_vEqSpace_of_digit (head_all h1d c hc)
  obtain ⟨lJ, hJ⟩ := pBind_first
    (f := fun _ : List Char => pBind pXId
      (fun M => pOpt (pXRangeTail1 fuel M) (⟨M, [], [], [], []⟩ : XCaps))) hstar hI
  exact ⟨_, lJ, hJ⟩

/-- The backtracking-priority match of `XRANGE` on a canonical token: the
    operator and the three numeral captures. -/
theorem pXRange_first {op n1 n2 n3 r : List Char} (fuel : Nat)
    (hop : op ∈ [([] : List Char), lit "=", lit "<", lit ">", lit "<=", lit ">="])
    (h1 : isStrictNum n1 = true) (h2 : isStrictNum n2 = true) (h3 : isStrictNum n3 = true)
    (hr : RestSep r) :
    ∃ cs l, pXRange fuel (op ++ (n1 ++ '.' :: (n2 ++ '.' :: (n3 ++ r)))) =
      ((op, (⟨n1, n2, n3, [], []⟩ : XCaps)), cs, r) :: l := by
  obtain ⟨h1ne, h1d⟩ := strict_parts' h1
  obtain ⟨d, hd, hdd⟩ : ∃ d, (n1 ++ '.' :: (n2 ++ '.' :: (n3 ++ r))).head? = some d ∧
      isDigitCh d = true := by
    cases hn1 : n1 with
    | nil => exact absurd hn1 h1ne
    | cons a as =>
      subst hn1
      exact ⟨a, rfl, h1d a (List.mem_cons_self a as)⟩
  obtain ⟨lA, hA⟩ := pGtlt_first hop hd hdd
  have hstar : pStarClass isSpaceRe (n1 ++ '.' :: (n2 ++ '.' :: (n3 ++ r))) =
      [([], [], n1 ++ '.' :: (n2 ++ '.' :: (n3 ++ r)))] := by
    apply pStarClass_singleton
    intro c hc
    rw [head_app h1ne] at hc
    exact not_spaceRe_of_digit (head_all h1d c hc)
  obtain ⟨csP, lB, hB⟩ := pXRangePlain_first fuel h1 h2 h3 hr
  obtain ⟨lC, hC⟩ := pMap_first (fun c : XCaps => (op, c)) hB
  obtain ⟨lD, hD⟩ := pBind_first
    (f := fun _ : List Char => pMap (pXRangePlain fuel) (fun c => (op, c))) hstar hC
  obtain ⟨lE, hE⟩ := pBind_first
    (f := fun g : List Char => pBind (pStarClass isSpaceRe)
      (fun _ => pMap (pXRangePlain fuel) (fun c => (g, c)))) hA hD
  exact ⟨_, lE, hE⟩

/-- On a canonical token the anchored `XRANGE` match reports the operator and
    the numeral captures, with empty prerelease and build. -/
theorem matchXRange_canon {op n1 n2 n3 : List Char}
    (hop : op ∈ [([] : List Char), lit "=", lit "<", lit ">", lit "<=", lit ">="])
    (h1 : isStrictNum n1 = true) (h2 : isStrictNum n2 = true) (h3 : isStrictNum n3 = true) :
    matchXRange (op ++ n1 ++ '.' :: n2 ++ '.' :: n3) =
      some (op, (⟨n1, n2, n3, [], []⟩ : XCaps)) := by
  obtain ⟨cs, l, h⟩ := pXRange_first
    ((op ++ n1 ++ '.' :: n2 ++ '.' :: n3).length + 1) hop h1 h2 h3 (Or.inl rfl)
  rw [List.append_nil] at h
  have hass : (op ++ n1 ++ '.' :: n2 ++ '.' :: n3 : List Char) =
      op ++ (n1 ++ '.' :: (n2 ++ '.' :: n3)) := by
    simp [List.append_assoc]
  unfold matchXRange
  rw [hass] at h ⊢
  exact firstFull_of_cons h rfl

/-- `replaceXRange` leaves a canonical token unchanged: the captures are all
    plain numerals, so `xrangeCore` falls through to `ret[0]`. -/
theorem replaceXRangeL_canon {t : List Char} (h : CanonTok t) : replaceXRangeL t = t := by
  obtain ⟨op, n1, n2, n3, hop, h1, h2, h3, rfl⟩ := h
  unfold replaceXRangeL
  rw [matchXRange_canon hop h1 h2 h3]
  simp only [xrangeCore, isX_false_of_strict h1, isX_false_of_strict h2,
    isX_false_of_strict h3, Bool.or_self, Bool.false_or, Bool.or_false,
    Bool.and_false, Bool.false_and, Bool.false_eq_true, if_false]

/-- `parseComparatorString` is the identity on a canonical token: none of the
    caret, tilde, x-range or star rewrites touch it. -/
theorem parseCompStr_canon {t : List Char} (h : CanonTok t) :
    parseComparatorStringL t = t := by
  have hchars := canonTok_chars h
  have htrim : trimSpaceL t = t := trimSpaceL_id
    (fun c hc => canonCh_not_spaceTrim (hchars c (head?_mem hc)))
    (fun c hc => canonCh_not_spaceTrim (hchars c (List.mem_of_getLast?_eq_some hc)))
  have hsplit : splitWs t = [t] :=
    splitWsF_single t (fun c hc => canonCh_not_spaceRe (hchars c hc))
  have hheadCaret : t.head? ≠ some '^' := by
    intro hc
    have hch := hchars '^' (head?_mem hc)
    rw [show CanonCh '^' = false from rfl] at hch
    cases hch
  have hheadTilde : t.head? ≠ some '~' := by
    intro hc
    have hch := hchars '~' (head?_mem hc)
    rw [show CanonCh '~' = false from rfl] at hch
    cases hch
  have hcarets : replaceCaretsL t = t := by
    unfold replaceCaretsL
    rw [htrim, hsplit]
    simp only [List.map_cons, List.map_nil, replaceCaretL_id hheadCaret]
    rw [intercalate_join]
    rfl
  have htildes : replaceTildesL t = t := by
    unfold replaceTildesL
    rw [htrim, hsplit]
    simp only [List.map_cons, List.map_nil, replaceTildeL_id hheadTilde]
    rw [intercalate_join]
    rfl
  have hxr : replaceXRangesL t = t := by
    unfold replaceXRangesL
    rw [htrim, hsplit]
    simp only [List.map_cons, List.map_nil, replaceXRangeL_canon h]
    rw [intercalate_join]
    rfl
  have hstars : replaceStarsL t = t := by
    unfold replaceStarsL
    rw [htrim]
    apply starReplace_id
    intro hm
    have hch := hchars '*' hm
    rw [show CanonCh '*' = false from rfl] at hch
    cases hch
  unfold parseComparatorStringL
  rw [hcarets, htildes, hxr, hstars]

theorem headMatch_of_cons {α : Type} {p : Parser α} {s : List Char}
    {x : α × List Char × List Char} {l} (h : p s = x :: l) : headMatch p s = some x := by
  unfold headMatch
  rw [h]
  rfl

theorem replaceAllAux_nil {α : Type} {p : Parser α} {repl : α → List Char} :
    ∀ fuel, replaceAllAux p repl fuel [] = [] := by
  intro fuel
  cases fuel <;> rfl

/-- One scan step: a nonempty leftmost match is replaced and the scan
    continues on the remaining input. -/
theorem replaceAllAux_step {α : Type} {p : Parser α} {repl : α → List Char}
    {s : List Char} {x : α × List Char × List Char}
    (hs : s ≠ []) (hm : headMatch p s = some x) (hc : x.2.1 ≠ []) (fuel : Nat) :
    replaceAllAux p repl (fuel + 1) s = repl x.1 ++ replaceAllAux p repl fuel x.2.2 := by
  cases s with
  | nil => exact absurd rfl hs
  | cons c cs =>
    obtain ⟨a, consumed, rest⟩ := x
    simp only [replaceAllAux, hm]
    rw [if_neg hc]

theorem joinTokens_length : ∀ toks : List (List Char),
    toks.length ≤ (joinTokens toks).length + 1 := by
  intro toks
  induction toks with
  | nil => simp
  | cons t ts ih =>
    cases ts with
    | nil => exact Nat.succ_le_succ (Nat.zero_le _)
    | cons t2 ts' =>
      show (t :: t2 :: ts').length ≤ (t ++ ' ' :: joinTokens (t2 :: ts')).length + 1
      simp only [List.length_cons, List.length_append] at *
      omega

/-- The `COMPARATORTRIM` scan leaves a space-joined canonical token sequence
    unchanged: each step matches one token (with its preceding separator) and
    the `$1$2$3` replacement reproduces it. -/
theorem compTrim_scan (F : Nat) :
    ∀ (toks : List (List Char)) (fuel : Nat) (sp : List Char),
    toks ≠ [] → (∀ t ∈ toks, CanonTok t) → (sp = [] ∨ sp = [' ']) →
    toks.length ≤ fuel →
    replaceAllAux (pCompTrim F) (fun g => g) fuel (sp ++ joinTokens toks) =
      sp ++ joinTokens toks := by
  intro toks
  induction toks with
  | nil => intro fuel sp h; exact absurd rfl h
  | cons t ts ih =>
    intro fuel sp _ hcanon hsp hfuel
    obtain ⟨op, n1, n2, n3, hop, h1, h2, h3, ht⟩ := hcanon t (List.mem_cons_self t ts)
    cases fuel with
    | zero => simp at hfuel
    | succ f =>
      cases ts with
      | nil =>
        have hI : sp ++ joinTokens [t] =
            sp ++ (op ++ (n1 ++ '.' :: (n2 ++ '.' :: (n3 ++ [])))) := by
          rw [show joinTokens [t] = t from rfl, ht]
          simp [List.append_assoc]
        obtain ⟨lM, hM⟩ := pCompTrim_first F hsp hop h1 h2 h3 (Or.inl rfl)
        have hhm := headMatch_of_cons hM
        rw [hI, replaceAllAux_step (by simp [List.append_eq_nil]) hhm
          (by simp [List.append_eq_nil]) f, replaceAllAux_nil]
        simp [List.append_assoc]
      | cons t2 ts' =>
        have hI : sp ++ joinTokens (t :: t2 :: ts') =
            sp ++ (op ++ (n1 ++ '.' :: (n2 ++ '.' ::
              (n3 ++ (' ' :: joinTokens (t2 :: ts')))))) := by
          rw [show joinTokens (t :: t2 :: ts') = t ++ ' ' :: joinTokens (t2 :: ts') from rfl,
            ht]
          simp [List.append_assoc]
        obtain ⟨lM, hM⟩ := pCompTrim_first F hsp hop h1 h2 h3 (Or.inr ⟨_, rfl⟩)
        have hhm := headMatch_of_cons hM
        rw [hI, replaceAllAux_step (by simp [List.append_eq_nil]) hhm
          (by simp [List.append_eq_nil]) f]
        have hrec := ih f [' '] (by simp)
          (fun u hu => hcanon u (List.mem_cons_of_mem t hu)) (Or.inr rfl)
          (by simp only [List.length_cons] at hfuel ⊢; omega)
        rw [show ([' '] ++ joinTokens (t2 :: ts') : List Char) =
          ' ' :: joinTokens (t2 :: ts') from rfl] at hrec
        rw [hrec]
        simp [List.append_assoc]

/-- `COMPARATORTRIM` applied by `parseRange` is the identity on a space-joined
    canonical token sequence. -/
theorem comparatorTrim_join {toks : List (List Char)} (hne : toks ≠ [])
    (hcanon : ∀ t ∈ toks, CanonTok t) :
    comparatorTrim (joinTokens toks) = joinTokens toks := by
  unfold comparatorTrim replaceAll
  have h := compTrim_scan ((joinTokens toks).length + 1) toks
    ((joinTokens toks).length + 1) [] hne hcanon (Or.inl rfl) (joinTokens_length toks)
  simpa using h

/-- C8: normalization is idempotent on canonical input.  For every nonempty
    sequence of canonical tokens — an optional operator `>=`, `<=`, `>`, `<`
    or `=` followed by a fully specified `M.m.p` version of strict numerals —
    `parseRange` maps the space-joined sequence back to exactly those tokens:
    the hyphen, tilde, caret, x-range and star rewrites all leave each token
    unchanged, and the final re-split recovers the original sequence. -/
theorem claim8_normalize_idempotent (toks : List (List Char)) (hne : toks ≠ [])
    (hcanon : ∀ t ∈ toks, CanonTok t) :
    parseRangeL (joinTokens toks) = toks := by
  have htoknil : ∀ t ∈ toks, t ≠ [] := fun t ht => canonTok_ne_nil (hcanon t ht)
  have hchars : ∀ t ∈ toks, ∀ c ∈ t, CanonCh c = true :=
    fun t ht => canonTok_chars (hcanon t ht)
  have hJchars : ∀ c ∈ joinTokens toks, c = ' ' ∨ CanonCh c = true := by
    intro c hc
    rcases joinTokens_mem c hc with rfl | ⟨t, ht, hct⟩
    · exact Or.inl rfl
    · exact Or.inr (hchars t ht c hct)
  have htrim : trimSpaceL (joinTokens toks) = joinTokens toks := by
    apply trimSpaceL_id
    · intro c hc
      cases toks with
      | nil => exact absurd rfl hne
      | cons t ts =>
        rw [joinTokens_head (htoknil t (List.mem_cons_self t ts))] at hc
        exact canonCh_not_spaceTrim (hchars t (List.mem_cons_self t ts) c (head?_mem hc))
    · intro c hc
      obtain ⟨t, ht, hct⟩ := joinTokens_getLast hne htoknil c hc
      exact canonCh_not_spaceTrim (hchars t ht c hct)
  have hhyphen : hyphenReplaceL (joinTokens toks) = joinTokens toks := by
    apply hyphenReplaceL_id
    intro hm
    rcases hJchars '-' hm with h | h
    · exact absurd h (by decide)
    · exact absurd h (by decide)
  have hcomp := comparatorTrim_join hne hcanon
  have htilde : tildeTrim (joinTokens toks) = joinTokens toks := by
    apply tildeTrim_id
    intro hm
    rcases hJchars '~' hm with h | h
    · exact absurd h (by decide)
    · exact absurd h (by decide)
  have hcaret : caretTrim (joinTokens toks) = joinTokens toks := by
    apply caretTrim_id
    intro hm
    rcases hJchars '^' hm with h | h
    · exact absurd h (by decide)
    · exact absurd h (by decide)
  have hsplitJ : splitWs (joinTokens toks) = toks :=
    splitWs_join toks hne (fun t ht =>
      ⟨htoknil t ht, fun c hc => canonCh_not_spaceRe (hchars t ht c hc)⟩)
  have hsplitC : splitOnChar ' ' (joinTokens toks) = toks :=
    splitOnChar_join toks hne
      (fun t ht c hc => canonCh_ne (hchars t ht c hc) (by decide))
  have hmap : toks.map parseComparatorStringL = toks :=
    map_id_of_mem (fun t ht => parseCompStr_canon (hcanon t ht))
  simp only [parseRangeL]
  rw [htrim, hhyphen, hcomp, htilde, hcaret, hsplitJ, intercalate_join toks, hsplitC,
    hmap, intercalate_join toks, hsplitJ]

/-- C8 witness: the canonical two-token sequence `>=1.2.3 <2.0.0` is returned
    unchanged by `parseRange`. -/
theorem claim8_witness :
    parseRangeL (joinTokens [lit ">=1.2.3", lit "<2.0.0"]) =
      [lit ">=1.2.3", lit "<2.0.0"] := by
  apply claim8_normalize_idempotent
  · decide
  · intro t ht
    simp only [List.mem_cons, List.not_mem_nil, or_false] at ht
    rcases ht with rfl | rfl
    · exact ⟨lit ">=", lit "1", lit "2", lit "3",
        by decide, by decide, by decide, by decide, by decide⟩
    · exact ⟨lit "<", lit "2", lit "0", lit "0",
        by decide, by decide, by decide, by decide, by decide⟩

theorem claim5_witness :
    xrangeCore (lit ">") ⟨lit "1", lit "2", lit "x", [], []⟩ (lit ">1.2.x") =
      lit ">=" ++ xrangeNextUp ⟨lit "1", lit "2", lit "x", [], []⟩ :=
  ((claim5_xrange_expansion.1 (lit ">") ⟨lit "1", lit "2", lit "x", [], []⟩ (lit ">1.2.x")
      ⟨Or.inr ⟨by decide, by decide⟩, Or.inr ⟨by decide, by decide⟩,
       Or.inl (by decide)⟩).2.2.1 (by decide) (Or.inr (by decide))).1

end Semver
